import Mathlib

/-!
Shallow embedding of the route-planning core `route_planner_python.py` of the
HybridRoute-Optimizer-API repository, together with theorems checking the
natural-language specification against it.

Modelling conventions:
* Python floats are idealized as rationals (`ℚ`).  The haversine formula
  (`DistanceCalculator.calculate`, source lines 34-45) is a fixed
  transcendental function of the two coordinates, so it is not representable
  as a computable rational function; every definition and theorem below is
  therefore parameterized by an arbitrary metric `d : α → α → ℚ` standing for
  `calculate`, and each theorem holds in particular for the haversine.
  Geo-points are likewise abstracted to an arbitrary inhabited type `α`.
* The ambient global `random` module is a deterministic stream once its
  internal state is fixed; it is modelled by the `Rng` state below.  The
  float comparison `random.random() < math.exp(-delta / temp)` in the
  annealing loop is delegated to a parameter
  `expTest : ℚ → ℚ → ℚ → Bool` (arguments: delta, temp, the consumed
  uniform draw), quantified over in the theorems; where its meaning matters
  it is tied to `Real.exp` by an explicit hypothesis.
* `time.time()` bookkeeping (`execution_time_ms`) is wall-clock I/O and is
  not modelled.
-/

namespace HybridRoute

/-- State of the ambient random source: two underlying entropy streams (one
backing `random.randint`, one backing `random.random()`) with read positions. -/
structure Rng where
  ints : ℕ → ℕ
  uniforms : ℕ → ℚ
  ipos : ℕ
  upos : ℕ

/-- `random.randint(lo, hi)`: consumes one integer draw; the result lies in
`[lo, hi]` (the raw entropy reduced modulo the range width). -/
def randint (lo hi : ℕ) (g : Rng) : ℕ × Rng :=
  (lo + g.ints g.ipos % (hi + 1 - lo), ⟨g.ints, g.uniforms, g.ipos + 1, g.upos⟩)

/-- `random.random()`: consumes one uniform draw. -/
def randunit (g : Rng) : ℚ × Rng :=
  (g.uniforms g.upos, ⟨g.ints, g.uniforms, g.ipos, g.upos + 1⟩)

/-- `AlgorithmConfig` (source lines 62-69). -/
structure AlgorithmConfig where
  population_size : ℕ
  cooling_rate : ℚ
  initial_temperature : ℚ
  max_iterations : ℕ
  use_cache : Bool
  enable_local_search : Bool

/-- `DistanceCalculator` instance state (source lines 24-27): the memo
dictionary (as an association list keyed by ordered index pairs) and the
cache flag. -/
structure DistanceCalculator where
  distance_cache : List ((ℕ × ℕ) × ℚ)
  use_cache : Bool

/-- `RouteResult` (source lines 72-78), minus the wall-clock field.
`total_distance` is `Option ℚ`, with `none` standing for the initial
`float('inf')` that survives when no (start, end) pair is evaluated. -/
structure RouteResult (α : Type) where
  path : List α
  total_distance : Option ℚ
  start_index : ℕ
  end_index : ℕ

section Planner

variable {α : Type} [Inhabited α]

/-- `DistanceCalculator.get_distance` (source lines 48-59): cached lookup of
the metric between `points[i]` and `points[j]`, keyed by
`(min(i,j), max(i,j))`; bypasses the cache when `use_cache` is off.  Returns
the distance and the updated calculator state. -/
def get_distance (d : α → α → ℚ) (dc : DistanceCalculator) (points : List α)
    (i j : ℕ) : ℚ × DistanceCalculator :=
  if dc.use_cache = false then
    (d (points.getD i default) (points.getD j default), dc)
  else
    let key : ℕ × ℕ := (min i j, max i j)
    match dc.distance_cache.lookup key with
    | some v => (v, dc)
    | none =>
      let dist := d (points.getD i default) (points.getD j default)
      (dist, ⟨(key, dist) :: dc.distance_cache, dc.use_cache⟩)

/-- `RoutePlanner.calculate_path_distance` (source lines 88-94): sum of the
metric over consecutive points (0 for paths shorter than 2). -/
def calculate_path_distance (d : α → α → ℚ) : List α → ℚ
  | a :: b :: rest => d a b + calculate_path_distance d (b :: rest)
  | _ => 0

/-- `RoutePlanner.extract_path` (source lines 156-157). -/
def extract_path (waypoints : List α) (indices : List ℕ) : List α :=
  indices.map fun idx => waypoints.getD idx default

end Planner

/-- `RoutePlanner.two_opt_swap` (source lines 124-128): the in-place
`while i < j` pairwise swap loop reverses the segment at positions
`i..j`; when `i ≥ j` the loop body never runs and the path is unchanged. -/
def two_opt_swap (path : List ℕ) (i j : ℕ) : List ℕ :=
  if i < j then
    path.take i ++ ((path.take (j + 1)).drop i).reverse ++ path.drop (j + 1)
  else path

/-- The permutations of the pool `s` in the order produced by
`itertools.permutations`: first elements are taken from the pool in pool
order, recursing on the remaining pool.  For a sorted pool this is exactly
lexicographic order.  The fuel argument equals the pool length at each
level. -/
def permsAux : ℕ → List ℕ → List (List ℕ)
  | 0, _ => [[]]
  | k + 1, s => s.flatMap fun x => (permsAux k (s.erase x)).map fun q => x :: q

/-- `itertools.permutations(range(n))` as used in `solve_exact_internal`. -/
def permutationsLex (n : ℕ) : List (List ℕ) :=
  permsAux n (List.range n)

/-- The accumulator step of the exact solver's scan (source lines 215-220):
keep the challenger exactly when its distance is strictly smaller. -/
def selMin {β : Type} (f : β → ℚ) (acc : β × ℚ) (x : β) : β × ℚ :=
  if f x < acc.2 then (x, f x) else acc

section Algorithms

variable {α : Type} [Inhabited α]

/-- The inner `for j in range(n)` scan of `construct_greedy_path` (source
lines 107-115): running over all indices, skipping visited ones, keeping the
strictly closest candidate seen so far (`none` models the initial
`float('inf')` best distance; the first component starts at `current`). -/
def nearestScan (d : α → α → ℚ) (wps : List α) (current : ℕ)
    (visited : ℕ → Bool) : ℕ × Option ℚ :=
  (List.range wps.length).foldl
    (fun acc j =>
      if visited j then acc
      else
        let dd := d (wps.getD current default) (wps.getD j default)
        match acc.2 with
        | none => (j, some dd)
        | some b => if dd < b then (j, some dd) else acc)
    (current, none)

/-- One iteration `i` of the outer loop of `construct_greedy_path` (source
lines 106-119).  State: (path array, visited predicate, current index). -/
def greedyStep (d : α → α → ℚ) (wps : List α)
    (st : List ℕ × (ℕ → Bool) × ℕ) (i : ℕ) : List ℕ × (ℕ → Bool) × ℕ :=
  let next_point := (nearestScan d wps st.2.2 st.2.1).1
  if next_point ≠ st.2.2 then
    (st.1.set i next_point, Function.update st.2.1 next_point true, next_point)
  else st

/-- `RoutePlanner.construct_greedy_path` (source lines 97-121): random start,
then `n-1` nearest-neighbor extension steps over `i = 1 .. n-1`, writing into
a path array initialized to `range(n)`. -/
def construct_greedy_path (d : α → α → ℚ) (wps : List α) (g : Rng) :
    List ℕ × Rng :=
  let n := wps.length
  let c := (randint 0 (n - 1) g).1
  let g1 := (randint 0 (n - 1) g).2
  let init : List ℕ × (ℕ → Bool) × ℕ :=
    ((List.range n).set 0 c, Function.update (fun _ => false) c true, c)
  (((List.range' 1 (n - 1)).foldl (greedyStep d wps) init).1, g1)

/-- Simulated-annealing loop state (source lines 160-202).  `stopped` records
that the `temp < 1.0` break has fired, so later iterations are no-ops. -/
structure SAState where
  current_path : List ℕ
  current_dist : ℚ
  best_path : List ℕ
  best_dist : ℚ
  temp : ℚ
  g : Rng
  stopped : Bool

/-- One iteration of the `for _ in range(max_iter)` annealing loop (source
lines 171-200).  Mirrors the source exactly: equal draws `continue` (skipping
the cooling line); `or` / `and` short-circuiting means the uniform draw is
consumed only when `delta ≥ 0` and `temp > 1e-9`; a rejected move restores
the saved pre-move path; cooling and the break test run after the move. -/
def saStep (d : α → α → ℚ) (expTest : ℚ → ℚ → ℚ → Bool)
    (cfg : AlgorithmConfig) (wps : List α) (st : SAState) : SAState :=
  if st.stopped then st else
  let n := wps.length
  let i0 := (randint 1 (n - 1) st.g).1
  let g1 := (randint 1 (n - 1) st.g).2
  let j0 := (randint 1 (n - 1) g1).1
  let g2 := (randint 1 (n - 1) g1).2
  if i0 = j0 then
    ⟨st.current_path, st.current_dist, st.best_path, st.best_dist, st.temp,
     g2, st.stopped⟩
  else
    let i := min i0 j0
    let j := max i0 j0
    let old_path := st.current_path
    let moved := two_opt_swap st.current_path i j
    let new_dist := calculate_path_distance d (extract_path wps moved)
    let delta := new_dist - st.current_dist
    let accept : Bool :=
      if delta < 0 then true
      else if st.temp > 1 / 1000000000 then
        expTest delta st.temp (randunit g2).1
      else false
    let g3 : Rng :=
      if delta < 0 then g2
      else if st.temp > 1 / 1000000000 then (randunit g2).2
      else g2
    let st1 : SAState :=
      if accept then
        ⟨moved, new_dist,
         if new_dist < st.best_dist then moved else st.best_path,
         if new_dist < st.best_dist then new_dist else st.best_dist,
         st.temp, g3, st.stopped⟩
      else
        ⟨old_path, st.current_dist, st.best_path, st.best_dist, st.temp,
         g3, st.stopped⟩
    let t2 := st1.temp * cfg.cooling_rate
    ⟨st1.current_path, st1.current_dist, st1.best_path, st1.best_dist, t2,
     st1.g, decide (t2 < 1)⟩

/-- The full annealing run (source lines 160-202) returning the final loop
state: greedy initialization, iteration budget
`min(max_iterations, n*n*50)`, then that many `saStep` iterations. -/
def saRun (d : α → α → ℚ) (expTest : ℚ → ℚ → ℚ → Bool)
    (cfg : AlgorithmConfig) (wps : List α) (g : Rng) : SAState :=
  let n := wps.length
  let p0 := (construct_greedy_path d wps g).1
  let g1 := (construct_greedy_path d wps g).2
  let d0 := calculate_path_distance d (extract_path wps p0)
  let max_iter := min cfg.max_iterations (n * n * 50)
  (saStep d expTest cfg wps)^[max_iter]
    ⟨p0, d0, p0, d0, cfg.initial_temperature, g1, false⟩

/-- `RoutePlanner.simulated_annealing` (source lines 160-202): the best-known
path of the final state, together with the advanced random source. -/
def simulated_annealing (d : α → α → ℚ) (expTest : ℚ → ℚ → ℚ → Bool)
    (cfg : AlgorithmConfig) (wps : List α) (g : Rng) : List ℕ × Rng :=
  ((saRun d expTest cfg wps g).best_path, (saRun d expTest cfg wps g).g)

/-- The candidate move list of one 2-opt sweep: Python
`for i in range(1, n-1): for j in range(i+1, n)`. -/
def sweepPairs (n : ℕ) : List (ℕ × ℕ) :=
  (List.range' 1 (n - 2)).flatMap fun i =>
    (List.range' (i + 1) (n - (i + 1))).map fun j => (i, j)

/-- The body of the double loop of `two_opt_optimize` (source lines 141-151).
State: (path, best_distance, improved flag). -/
def sweepStep (d : α → α → ℚ) (wps : List α)
    (st : List ℕ × ℚ × Bool) (ij : ℕ × ℕ) : List ℕ × ℚ × Bool :=
  let temp_path := two_opt_swap st.1 ij.1 ij.2
  let new_distance := calculate_path_distance d (extract_path wps temp_path)
  if new_distance < st.2.1 then (temp_path, new_distance, true) else st

/-- One full sweep of all candidate moves (source lines 140-151). -/
def sweep (d : α → α → ℚ) (wps : List α) (path : List ℕ) (best : ℚ) :
    List ℕ × ℚ × Bool :=
  (sweepPairs path.length).foldl (sweepStep d wps) (path, best, false)

/-- The `while improved` loop of `two_opt_optimize` (source lines 139-151),
with an explicit sweep budget.  Each improving sweep strictly lowers the best
distance, which ranges over the finite set of distances of permutations of
the path, so any budget larger than the number of permutations reaches the
fixpoint; `two_opt_optimize` below supplies such a budget and the
stabilization theorem proves the loop indeed stops improving within it. -/
def twoOptGo (d : α → α → ℚ) (wps : List α) :
    ℕ → List ℕ → ℚ → List ℕ
  | 0, path, _ => path
  | fuel + 1, path, best =>
    let r := sweep d wps path best
    if r.2.2 = true then twoOptGo d wps fuel r.1 r.2.1 else path

/-- `RoutePlanner.two_opt_optimize` (source lines 131-153): returns the input
unchanged when local search is disabled, otherwise runs repeated sweeps from
the input order and its distance. -/
def two_opt_optimize (d : α → α → ℚ) (cfg : AlgorithmConfig) (wps : List α)
    (path : List ℕ) : List ℕ :=
  if cfg.enable_local_search = false then path
  else
    twoOptGo d wps (path.permutations.length + 1) path
      (calculate_path_distance d (extract_path wps path))

/-- `RoutePlanner.solve_exact_internal` (source lines 205-222): for more than
12 waypoints delegate to simulated annealing; otherwise scan all permutations
(in `itertools.permutations` order) starting from the identity and its
distance, keeping a challenger only when strictly better. -/
def solve_exact_internal (d : α → α → ℚ) (expTest : ℚ → ℚ → ℚ → Bool)
    (cfg : AlgorithmConfig) (wps : List α) (g : Rng) : List ℕ × Rng :=
  if wps.length > 12 then simulated_annealing d expTest cfg wps g
  else
    (((permutationsLex wps.length).foldl
        (selMin fun p => calculate_path_distance d (extract_path wps p))
        (List.range wps.length,
         calculate_path_distance d
           (extract_path wps (List.range wps.length)))).1,
     g)

/-- The (start index, end index) pairs visited by the orchestrator's double
loop, in enumeration order (start index outer, end index inner). -/
def pairIndices (ns ne : ℕ) : List (ℕ × ℕ) :=
  (List.range ns).flatMap fun si => (List.range ne).map fun ei => (si, ei)

/-- The per-pair solver dispatch of the orchestrator (source lines 237-242):
exact enumeration for at most 12 waypoints, otherwise simulated annealing
followed by the optional 2-opt refinement. -/
def solvedOrder (d : α → α → ℚ) (expTest : ℚ → ℚ → ℚ → Bool)
    (cfg : AlgorithmConfig) (wps : List α) (g : Rng) : List ℕ × Rng :=
  if wps.length ≤ 12 then solve_exact_internal d expTest cfg wps g
  else
    let sa := simulated_annealing d expTest cfg wps g
    if cfg.enable_local_search then
      (two_opt_optimize d cfg wps sa.1, sa.2)
    else sa

/-- The body of the orchestrator's double loop (source lines 234-256) for one
(start, end) pair.  State: the incumbent best `(full_path, total, si, ei)`
(`none` models the initial `float('inf')` incumbent, against which any finite
distance wins) and the random source. -/
def planStep (d : α → α → ℚ) (expTest : ℚ → ℚ → ℚ → Bool)
    (cfg : AlgorithmConfig) (starts wps ends : List α)
    (st : Option (List α × ℚ × ℕ × ℕ) × Rng) (p : ℕ × ℕ) :
    Option (List α × ℚ × ℕ × ℕ) × Rng :=
  let solved : List ℕ × Rng := solvedOrder d expTest cfg wps st.2
  let full_path : List α :=
    starts.getD p.1 default :: (extract_path wps solved.1 ++ [ends.getD p.2 default])
  let total := calculate_path_distance d full_path
  let keep : Bool :=
    match st.1 with
    | none => true
    | some b => decide (total < b.2.1)
  (if keep then some (full_path, total, p.1, p.2) else st.1, solved.2)

/-- `RoutePlanner.plan_route` (source lines 225-270), minus wall-clock
timing.  Note the source performs no validation of `starts`/`ends`: with an
empty candidate set the double loop never runs and the function returns a
result built from the initial values (empty path, `inf` distance, indices
0). -/
def plan_route (d : α → α → ℚ) (expTest : ℚ → ℚ → ℚ → Bool)
    (cfg : AlgorithmConfig) (starts wps ends : List α) (g : Rng) :
    RouteResult α × Rng :=
  let r := (pairIndices starts.length ends.length).foldl
    (planStep d expTest cfg starts wps ends) (none, g)
  match r.1 with
  | none => (⟨[], none, 0, 0⟩, r.2)
  | some b => (⟨b.1, some b.2.1, b.2.2.1, b.2.2.2⟩, r.2)

end Algorithms

/-- The scan of the exact solver, abstracted: the first component of folding
`selMin f` from `(b, f b)`. -/
def runMin {β : Type} (f : β → ℚ) (l : List β) (b : β) : β :=
  (l.foldl (selMin f) (b, f b)).1

section Statements

variable {α : Type} [Inhabited α]

/-- The objective the solvers minimize: total distance of the waypoint list
ordered by an index permutation. -/
def orderCost (d : α → α → ℚ) (wps : List α) (p : List ℕ) : ℚ :=
  calculate_path_distance d (extract_path wps p)

/-- Specification of the exact solver on small instances: its result is a
permutation of `range n`, minimal over all permutations, and it is the first
minimizer in the enumeration `permutationsLex n`, which is lexicographically
sorted and starts with the identity. -/
def exactSolverSpec (d : α → α → ℚ) (expTest : ℚ → ℚ → ℚ → Bool)
    (cfg : AlgorithmConfig) (wps : List α) (g : Rng) : Prop :=
  ((solve_exact_internal d expTest cfg wps g).1).Perm
      (List.range wps.length) ∧
  (∀ p : List ℕ, p.Perm (List.range wps.length) →
    orderCost d wps (solve_exact_internal d expTest cfg wps g).1 ≤
      orderCost d wps p) ∧
  (∀ p : List ℕ,
    p.Perm (List.range wps.length) ↔ p ∈ permutationsLex wps.length) ∧
  (permutationsLex wps.length).Sorted (List.Lex (· < ·)) ∧
  (permutationsLex wps.length).head? = some (List.range wps.length) ∧
  ∃ pre post,
    permutationsLex wps.length =
      pre ++ (solve_exact_internal d expTest cfg wps g).1 :: post ∧
    (∀ p ∈ pre,
      orderCost d wps (solve_exact_internal d expTest cfg wps g).1 <
        orderCost d wps p) ∧
    (∀ p ∈ post,
      orderCost d wps (solve_exact_internal d expTest cfg wps g).1 ≤
        orderCost d wps p)

/-- The distance between waypoints given by index, as used inside the greedy
construction (`self.dist_calc.calculate(waypoints[current], waypoints[j])`). -/
def idxDist (d : α → α → ℚ) (wps : List α) (c j : ℕ) : ℚ :=
  d (wps.getD c default) (wps.getD j default)

/-- `nearestScan` generalized to an arbitrary scan list and accumulator (the
source always scans `range n` from `(current, inf)`); used to reason about
the scan by induction. -/
def nearestFold (d : α → α → ℚ) (wps : List α) (current : ℕ)
    (visited : ℕ → Bool) (l : List ℕ) (acc : ℕ × Option ℚ) : ℕ × Option ℚ :=
  l.foldl
    (fun acc j =>
      if visited j then acc
      else
        let dd := d (wps.getD current default) (wps.getD j default)
        match acc.2 with
        | none => (j, some dd)
        | some b => if dd < b then (j, some dd) else acc)
    acc

/-- Specification of the greedy construction: the result is a permutation of
`{0,…,n-1}`, and the selection scan used at every step returns, among the
unvisited indices, one at minimal distance from the current point, strictly
beating every unvisited index below it (lowest-index tie-break). -/
def greedySpec (d : α → α → ℚ) (wps : List α) (g : Rng) : Prop :=
  ((construct_greedy_path d wps g).1).Perm (List.range wps.length) ∧
  ∀ current : ℕ, ∀ visited : ℕ → Bool,
    (∃ j, j < wps.length ∧ visited j = false) →
    (nearestScan d wps current visited).1 < wps.length ∧
    visited (nearestScan d wps current visited).1 = false ∧
    (nearestScan d wps current visited).2 =
      some (idxDist d wps current (nearestScan d wps current visited).1) ∧
    (∀ j, j < wps.length → visited j = false →
      idxDist d wps current (nearestScan d wps current visited).1 ≤
        idxDist d wps current j) ∧
    (∀ j, j < (nearestScan d wps current visited).1 → visited j = false →
      idxDist d wps current (nearestScan d wps current visited).1 <
        idxDist d wps current j)

/-- Specification of the 2-opt local search: a sweep accepts a move only
when it strictly lowers the tracked best distance (so the tracked distance
never increases across sweeps, and a sweep that improves nothing leaves the
state untouched), and when local search is enabled the optimizer returns a
permutation of its input whose distance is no larger and at which no single
candidate reversal strictly improves — the local optimum at which the
`while improved` loop terminates. -/
def twoOptSpec (d : α → α → ℚ) (cfg : AlgorithmConfig) (wps : List α)
    (path : List ℕ) : Prop :=
  (∀ (p : List ℕ) (b : ℚ),
    (sweep d wps p b).2.1 ≤ b ∧
    ((sweep d wps p b).2.2 = false → sweep d wps p b = (p, b, false)) ∧
    ((sweep d wps p b).2.2 = true →
      (sweep d wps p b).2.1 < b ∧
      (sweep d wps p b).2.1 = orderCost d wps (sweep d wps p b).1 ∧
      ((sweep d wps p b).1).Perm p)) ∧
  (cfg.enable_local_search = true →
    (two_opt_optimize d cfg wps path).Perm path ∧
    orderCost d wps (two_opt_optimize d cfg wps path) ≤
      orderCost d wps path ∧
    ∀ ij ∈ sweepPairs (two_opt_optimize d cfg wps path).length,
      ¬ (orderCost d wps
          (two_opt_swap (two_opt_optimize d cfg wps path) ij.1 ij.2) <
        orderCost d wps (two_opt_optimize d cfg wps path)))

/-- The acceptance behavior of one move-performing annealing iteration, as
the source implements it: a strictly improving move is accepted outright;
with `delta ≥ 0` and `temp ≤ 1e-9` the move is rejected and the pre-move
path and distance are restored exactly; with `delta ≥ 0` and `temp > 1e-9`
the move is accepted exactly when the float test
`random.random() < exp(-delta/temp)` (the `expTest` parameter) passes. -/
def metropolisSpec (d : α → α → ℚ) (expTest : ℚ → ℚ → ℚ → Bool)
    (cfg : AlgorithmConfig) (wps : List α) (st : SAState) : Prop :=
  let i0 := (randint 1 (wps.length - 1) st.g).1
  let g1 := (randint 1 (wps.length - 1) st.g).2
  let j0 := (randint 1 (wps.length - 1) g1).1
  let g2 := (randint 1 (wps.length - 1) g1).2
  let moved := two_opt_swap st.current_path (min i0 j0) (max i0 j0)
  let new_dist := calculate_path_distance d (extract_path wps moved)
  let delta := new_dist - st.current_dist
  let u := (randunit g2).1
  (delta < 0 →
    (saStep d expTest cfg wps st).current_path = moved ∧
    (saStep d expTest cfg wps st).current_dist = new_dist) ∧
  (¬ delta < 0 → ¬ st.temp > 1 / 1000000000 →
    (saStep d expTest cfg wps st).current_path = st.current_path ∧
    (saStep d expTest cfg wps st).current_dist = st.current_dist) ∧
  (¬ delta < 0 → st.temp > 1 / 1000000000 →
    (expTest delta st.temp u = true →
      (saStep d expTest cfg wps st).current_path = moved ∧
      (saStep d expTest cfg wps st).current_dist = new_dist) ∧
    (expTest delta st.temp u = false →
      (saStep d expTest cfg wps st).current_path = st.current_path ∧
      (saStep d expTest cfg wps st).current_dist = st.current_dist))

/-- Shape of a stored incumbent of the orchestrator's double loop: the
recorded indices point into the candidate lists and the recorded path is a
chosen start, followed by the waypoints reordered by some permutation of
their indices, followed by a chosen end. -/
def planShape (starts wps ends : List α) (b : List α × ℚ × ℕ × ℕ) : Prop :=
  b.2.2.1 < starts.length ∧ b.2.2.2 < ends.length ∧
  ∃ order : List ℕ, order.Perm (List.range wps.length) ∧
    b.1 = starts.getD b.2.2.1 default ::
      (extract_path wps order ++ [ends.getD b.2.2.2 default])

/-- The route-result invariants of the orchestrator: the path has length
`n + 2`, its interior `path[1:-1]` is a permutation of the waypoint list
(every waypoint exactly once), and its first and last elements are members
of the candidate start and end lists. -/
def planRouteSpec (starts wps ends : List α) (res : RouteResult α) : Prop :=
  res.path.length = wps.length + 2 ∧
  ((res.path.drop 1).dropLast).Perm wps ∧
  (∃ s ∈ starts, res.path.head? = some s) ∧
  (∃ e ∈ ends, res.path.getLast? = some e)

/-- The total distance the loop stores for a (start, end) pair in the
zero-waypoint case: the direct distance of the pair plus the distance of the
one-element tail `[end]`, which is `0` (kept un-normalized so that the fold
is followed literally). -/
def pairDist (d : α → α → ℚ) (starts ends : List α) (p : ℕ × ℕ) : ℚ :=
  d (starts.getD p.1 default) (ends.getD p.2 default) + 0

/-- Specification of the degenerate zero-waypoint case: the result path is
`[start, end]` for the chosen index pair, the total distance is the direct
distance of that pair, the chosen indices are in range, the pair's distance
is minimal over the Cartesian product of starts and ends, and every pair
strictly earlier in enumeration order (start index outer, end index inner)
has strictly larger distance — the first-encountered tie-break. -/
def emptyWaypointsSpec (d : α → α → ℚ) (starts ends : List α)
    (res : RouteResult α) : Prop :=
  res.start_index < starts.length ∧ res.end_index < ends.length ∧
  res.path = [starts.getD res.start_index default,
              ends.getD res.end_index default] ∧
  res.total_distance =
    some (d (starts.getD res.start_index default)
            (ends.getD res.end_index default)) ∧
  (∀ si ei, si < starts.length → ei < ends.length →
    d (starts.getD res.start_index default)
        (ends.getD res.end_index default) ≤
      d (starts.getD si default) (ends.getD ei default)) ∧
  (∀ si ei, si < starts.length → ei < ends.length →
    (si < res.start_index ∨ (si = res.start_index ∧ ei < res.end_index)) →
    d (starts.getD res.start_index default)
        (ends.getD res.end_index default) <
      d (starts.getD si default) (ends.getD ei default))

/-- Two random-source states at the same read positions whose underlying
streams agree below the given absolute bounds. -/
def RngAgree (g1 g2 : Rng) (ib ub : ℕ) : Prop :=
  g1.ipos = g2.ipos ∧ g1.upos = g2.upos ∧
  (∀ k, k < ib → g1.ints k = g2.ints k) ∧
  (∀ k, k < ub → g1.uniforms k = g2.uniforms k)

/-- Two annealing states that agree on everything except the random source. -/
def SAStateEqExceptRng (s1 s2 : SAState) : Prop :=
  s1.current_path = s2.current_path ∧ s1.current_dist = s2.current_dist ∧
  s1.best_path = s2.best_path ∧ s1.best_dist = s2.best_dist ∧
  s1.temp = s2.temp ∧ s1.stopped = s2.stopped

end Statements

theorem runMin_nil {β : Type} (f : β → ℚ) (b : β) : runMin f [] b = b := rfl

theorem runMin_cons {β : Type} (f : β → ℚ) (p : β) (t : List β) (b : β) :
    runMin f (p :: t) b = if f p < f b then runMin f t p else runMin f t b := by
  unfold runMin selMin
  rw [List.foldl_cons]
  by_cases h : f p < f b <;> simp [h]

/-- Full characterization of the strict-improvement scan: the result carries
the minimal value over the seed and the list, and when it differs from the
seed it is the first element of the list beating every earlier element
strictly (first-encountered tie-break). -/
theorem runMin_spec {β : Type} (f : β → ℚ) :
    ∀ (l : List β) (b : β),
      (runMin f l b = b ∨ runMin f l b ∈ l) ∧
      f (runMin f l b) ≤ f b ∧
      (∀ p ∈ l, f (runMin f l b) ≤ f p) ∧
      (runMin f l b ≠ b →
        ∃ pre post, l = pre ++ runMin f l b :: post ∧
          f (runMin f l b) < f b ∧
          ∀ p ∈ pre, f (runMin f l b) < f p) := by
  intro l
  induction l with
  | nil =>
    intro b
    refine ⟨Or.inl rfl, le_refl _, by simp, fun h => absurd rfl h⟩
  | cons p t ih =>
    intro b
    rw [runMin_cons]
    by_cases h : f p < f b
    · simp only [if_pos h]
      obtain ⟨hmem, hle, hall, hfirst⟩ := ih p
      refine ⟨?_, le_trans hle h.le, ?_, ?_⟩
      · rcases hmem with he | hm
        · exact Or.inr (by rw [he]; exact List.mem_cons_self p t)
        · exact Or.inr (List.mem_cons_of_mem _ hm)
      · intro q hq
        rcases List.mem_cons.mp hq with rfl | hq
        · exact hle
        · exact hall q hq
      · intro _
        by_cases hrp : runMin f t p = p
        · exact ⟨[], t, by simp [hrp], by rw [hrp]; exact h, by simp⟩
        · obtain ⟨pre, post, hsplit, hlt, hpre⟩ := hfirst hrp
          refine ⟨p :: pre, post, ?_, lt_trans hlt h, ?_⟩
          · set r := runMin f t p with hr
            rw [hsplit, List.cons_append]
          intro q hq
          rcases List.mem_cons.mp hq with rfl | hq
          · exact hlt
          · exact hpre q hq
    · simp only [if_neg h]
      push_neg at h
      obtain ⟨hmem, hle, hall, hfirst⟩ := ih b
      refine ⟨?_, hle, ?_, ?_⟩
      · rcases hmem with he | hm
        · exact Or.inl he
        · exact Or.inr (List.mem_cons_of_mem _ hm)
      · intro q hq
        rcases List.mem_cons.mp hq with rfl | hq
        · exact le_trans hle h
        · exact hall q hq
      · intro hne
        obtain ⟨pre, post, hsplit, hlt, hpre⟩ := hfirst hne
        refine ⟨p :: pre, post, ?_, hlt, ?_⟩
        · set r := runMin f t b with hr
          rw [hsplit, List.cons_append]
        intro q hq
        rcases List.mem_cons.mp hq with rfl | hq
        · exact lt_of_lt_of_le hlt h
        · exact hpre q hq

/-- Membership in the permutation enumeration: exactly the permutations of
the (duplicate-free) pool. -/
theorem mem_permsAux :
    ∀ {k : ℕ} {s : List ℕ}, s.Nodup → s.length = k →
      ∀ {p : List ℕ}, p ∈ permsAux k s ↔ p.Perm s := by
  intro k
  induction k with
  | zero =>
    intro s _ hlen p
    obtain rfl : s = [] := List.length_eq_zero.mp hlen
    simp [permsAux, List.perm_nil]
  | succ k ih =>
    intro s hnd hlen p
    simp only [permsAux, List.mem_flatMap, List.mem_map]
    constructor
    · rintro ⟨x, hx, q, hq, rfl⟩
      have hlen' : (s.erase x).length = k := by
        rw [List.length_erase_of_mem hx, hlen]
        omega
      have hq' : q.Perm (s.erase x) := (ih (hnd.erase x) hlen').mp hq
      exact ((hq'.cons x).trans (List.perm_cons_erase hx).symm)
    · intro hp
      have hlenp : p.length = k + 1 := by rw [hp.length_eq, hlen]
      match p, hlenp with
      | x :: q, _ =>
        obtain ⟨hx, hq⟩ := List.cons_perm_iff_perm_erase.mp hp
        have hlen' : (s.erase x).length = k := by
          rw [List.length_erase_of_mem hx, hlen]
          omega
        exact ⟨x, hx, q, (ih (hnd.erase x) hlen').mpr hq, rfl⟩

/-- The enumeration starts with the pool itself (for `range n`: the identity
permutation). -/
theorem head_permsAux :
    ∀ {k : ℕ} {s : List ℕ}, s.length = k → (permsAux k s).head? = some s := by
  intro k
  induction k with
  | zero =>
    intro s hlen
    obtain rfl : s = [] := List.length_eq_zero.mp hlen
    rfl
  | succ k ih =>
    intro s hlen
    match s, hlen with
    | x :: t, hlen =>
      have hlen' : t.length = k := by simpa using hlen
      simp only [permsAux, List.flatMap_cons, List.erase_cons_head,
        List.head?_append, List.head?_map, ih hlen']
      rfl

/-- For a strictly sorted pool the enumeration is lexicographically sorted. -/
theorem sorted_permsAux :
    ∀ {k : ℕ} {s : List ℕ}, s.length = k → s.Sorted (· < ·) →
      (permsAux k s).Sorted (List.Lex (· < ·)) := by
  intro k
  induction k with
  | zero =>
    intro s _ _
    simp [permsAux]
  | succ k ih =>
    intro s hlen hs
    simp only [permsAux]
    rw [List.Sorted] at *
    refine List.pairwise_flatMap.mpr ⟨?_, ?_⟩
    · intro x hx
      rw [List.pairwise_map]
      have hlen' : (s.erase x).length = k := by
        rw [List.length_erase_of_mem hx, hlen]
        omega
      have hsort' : (s.erase x).Sorted (· < ·) :=
        hs.sublist (List.erase_sublist x s)
      exact (ih hlen' hsort').imp fun h => List.Lex.cons h
    · refine hs.imp ?_
      intro a b hab
      intro x hx y hy
      obtain ⟨qa, _, rfl⟩ := List.mem_map.mp hx
      obtain ⟨qb, _, rfl⟩ := List.mem_map.mp hy
      exact List.Lex.rel hab

/-- On small instances the exact solver is exactly the strict-improvement
scan over the permutation enumeration seeded with the identity. -/
theorem solve_exact_eq_runMin {α : Type} [Inhabited α] (d : α → α → ℚ)
    (expTest : ℚ → ℚ → ℚ → Bool) (cfg : AlgorithmConfig) (wps : List α)
    (g : Rng) (h : wps.length ≤ 12) :
    (solve_exact_internal d expTest cfg wps g).1 =
      runMin (orderCost d wps) (permutationsLex wps.length)
        (List.range wps.length) := by
  unfold solve_exact_internal runMin orderCost
  rw [if_neg (by omega)]

/-- C1: for every waypoint list with at most 12 entries, `solve_exact_internal`
returns a permutation of `{0,…,n-1}` whose open-path distance is minimal over
all `n!` permutations, and among equal-distance minimizers it is the first one
encountered in the enumeration, which is lexicographically sorted and starts
with the identity permutation. -/
theorem solve_exact_minimizes {α : Type} [Inhabited α] (d : α → α → ℚ)
    (expTest : ℚ → ℚ → ℚ → Bool) (cfg : AlgorithmConfig) (wps : List α)
    (g : Rng) (h : wps.length ≤ 12) :
    exactSolverSpec d expTest cfg wps g := by
  unfold exactSolverSpec
  rw [solve_exact_eq_runMin d expTest cfg wps g h]
  have hmemiff : ∀ p : List ℕ,
      p ∈ permutationsLex wps.length ↔ p.Perm (List.range wps.length) :=
    fun p => mem_permsAux (List.nodup_range _) (List.length_range wps.length)
  have hsorted := sorted_permsAux (List.length_range wps.length)
    (List.sorted_lt_range wps.length)
  have hhead := head_permsAux (s := List.range wps.length)
    (List.length_range wps.length)
  obtain ⟨hmem, hle, hall, hfirst⟩ :=
    runMin_spec (orderCost d wps) (permutationsLex wps.length)
      (List.range wps.length)
  set r := runMin (orderCost d wps) (permutationsLex wps.length)
    (List.range wps.length) with hr
  have hrperm : r.Perm (List.range wps.length) := by
    rcases hmem with he | hm
    · rw [he]
    · exact (hmemiff r).mp hm
  refine ⟨hrperm, ?_, fun p => (hmemiff p).symm, hsorted, hhead, ?_⟩
  · intro p hp
    exact hall p ((hmemiff p).mpr hp)
  · by_cases hcase : r = List.range wps.length
    · have hhead2 : (permutationsLex wps.length).head? =
          some (List.range wps.length) := hhead
      obtain ⟨tail, htl⟩ :
          ∃ t, permutationsLex wps.length = List.range wps.length :: t := by
        cases hpl : permutationsLex wps.length with
        | nil => rw [hpl] at hhead2; simp at hhead2
        | cons b t =>
          rw [hpl] at hhead2
          simp only [List.head?_cons, Option.some.injEq] at hhead2
          exact ⟨t, by rw [hhead2]⟩
      refine ⟨[], tail, by rw [hcase, htl]; rfl, by simp, ?_⟩
      intro p hp
      exact hall p (by rw [htl]; exact List.mem_cons_of_mem _ hp)
    · obtain ⟨pre, post, hsplit, _, hpre⟩ := hfirst hcase
      refine ⟨pre, post, hsplit, hpre, ?_⟩
      intro p hp
      refine hall p ?_
      rw [hsplit]
      exact List.mem_append_right _ (List.mem_cons_of_mem _ hp)

theorem solve_exact_minimizes_witness :
    (([0, 1] : List ℕ).length ≤ 12) ∧
    exactSolverSpec (fun a b : ℕ => (a : ℚ) + (b : ℚ)) (fun _ _ _ => true)
      ⟨100, 995 / 1000, 10000, 100000, true, true⟩ [0, 1]
      ⟨fun _ => 0, fun _ => 0, 0, 0⟩ :=
  ⟨by norm_num,
   solve_exact_minimizes (fun a b : ℕ => (a : ℚ) + (b : ℚ)) (fun _ _ _ => true)
     ⟨100, 995 / 1000, 10000, 100000, true, true⟩ [0, 1]
     ⟨fun _ => 0, fun _ => 0, 0, 0⟩ (by norm_num)⟩

theorem nearestScan_eq_fold {α : Type} [Inhabited α] (d : α → α → ℚ)
    (wps : List α) (current : ℕ) (visited : ℕ → Bool) :
    nearestScan d wps current visited =
      nearestFold d wps current visited (List.range wps.length)
        (current, none) := rfl

theorem nearestFold_cons_visited {α : Type} [Inhabited α] {d : α → α → ℚ}
    {wps : List α} {current : ℕ} {visited : ℕ → Bool} {j : ℕ} {t : List ℕ}
    (acc : ℕ × Option ℚ) (h : visited j = true) :
    nearestFold d wps current visited (j :: t) acc =
      nearestFold d wps current visited t acc := by
  unfold nearestFold
  rw [List.foldl_cons]
  simp [h]

theorem nearestFold_cons_none {α : Type} [Inhabited α] {d : α → α → ℚ}
    {wps : List α} {current : ℕ} {visited : ℕ → Bool} {j : ℕ} {t : List ℕ}
    (c : ℕ) (h : visited j = false) :
    nearestFold d wps current visited (j :: t) (c, none) =
      nearestFold d wps current visited t
        (j, some (idxDist d wps current j)) := by
  unfold nearestFold idxDist
  rw [List.foldl_cons]
  simp [h]

theorem nearestFold_cons_some {α : Type} [Inhabited α] {d : α → α → ℚ}
    {wps : List α} {current : ℕ} {visited : ℕ → Bool} {j : ℕ} {t : List ℕ}
    (a : ℕ) (b : ℚ) (h : visited j = false) :
    nearestFold d wps current visited (j :: t) (a, some b) =
      if idxDist d wps current j < b then
        nearestFold d wps current visited t
          (j, some (idxDist d wps current j))
      else nearestFold d wps current visited t (a, some b) := by
  unfold nearestFold idxDist
  rw [List.foldl_cons]
  set dd := d (wps.getD current default) (wps.getD j default) with hdd
  by_cases hlt : dd < b <;> simp [h, hlt]

theorem nearestFold_some_eq_runMin {α : Type} [Inhabited α] (d : α → α → ℚ)
    (wps : List α) (current : ℕ) (visited : ℕ → Bool) :
    ∀ (t : List ℕ) (a : ℕ),
      nearestFold d wps current visited t
          (a, some (idxDist d wps current a)) =
        (runMin (idxDist d wps current) (t.filter fun j => !visited j) a,
         some (idxDist d wps current
           (runMin (idxDist d wps current)
             (t.filter fun j => !visited j) a))) := by
  intro t
  induction t with
  | nil =>
    intro a
    simp [nearestFold, runMin_nil]
  | cons j t ih =>
    intro a
    by_cases h : visited j = true
    · rw [nearestFold_cons_visited _ h, List.filter_cons_of_neg (by simp [h])]
      exact ih a
    · have h' : visited j = false := by simpa using h
      rw [nearestFold_cons_some _ _ h',
        List.filter_cons_of_pos (by simp [h']), runMin_cons]
      by_cases hlt : idxDist d wps current j < idxDist d wps current a
      · rw [if_pos hlt, if_pos hlt]
        exact ih j
      · rw [if_neg hlt, if_neg hlt]
        exact ih a

theorem nearestFold_none_spec {α : Type} [Inhabited α] (d : α → α → ℚ)
    (wps : List α) (current : ℕ) (visited : ℕ → Bool) :
    ∀ (l : List ℕ) (c : ℕ),
      nearestFold d wps current visited l (c, none) =
        match l.filter (fun j => !visited j) with
        | [] => (c, none)
        | u :: us =>
          (runMin (idxDist d wps current) us u,
           some (idxDist d wps current
             (runMin (idxDist d wps current) us u))) := by
  intro l
  induction l with
  | nil =>
    intro c
    simp [nearestFold]
  | cons j t ih =>
    intro c
    by_cases h : visited j = true
    · rw [nearestFold_cons_visited _ h, List.filter_cons_of_neg (by simp [h])]
      exact ih c
    · have h' : visited j = false := by simpa using h
      rw [nearestFold_cons_none _ h', List.filter_cons_of_pos (by simp [h']),
        nearestFold_some_eq_runMin]

/-- Characterization of the greedy selection scan: when an unvisited index
exists, the scan returns an unvisited index at minimal distance, strictly
beating every unvisited index below it, and reports its distance. -/
theorem nearestScan_spec {α : Type} [Inhabited α] (d : α → α → ℚ)
    (wps : List α) (current : ℕ) (visited : ℕ → Bool)
    (hex : ∃ j, j < wps.length ∧ visited j = false) :
    (nearestScan d wps current visited).1 < wps.length ∧
    visited (nearestScan d wps current visited).1 = false ∧
    (nearestScan d wps current visited).2 =
      some (idxDist d wps current (nearestScan d wps current visited).1) ∧
    (∀ j, j < wps.length → visited j = false →
      idxDist d wps current (nearestScan d wps current visited).1 ≤
        idxDist d wps current j) ∧
    (∀ j, j < (nearestScan d wps current visited).1 → visited j = false →
      idxDist d wps current (nearestScan d wps current visited).1 <
        idxDist d wps current j) := by
  obtain ⟨j0, hj0n, hj0⟩ := hex
  have hmemf : j0 ∈ (List.range wps.length).filter (fun j => !visited j) :=
    List.mem_filter.mpr ⟨List.mem_range.mpr hj0n, by simp [hj0]⟩
  have hsortedf :
      ((List.range wps.length).filter fun j => !visited j).Pairwise (· < ·) :=
    (List.sorted_lt_range wps.length).sublist (List.filter_sublist _)
  cases hf : (List.range wps.length).filter (fun j => !visited j) with
  | nil =>
    rw [hf] at hmemf
    simp at hmemf
  | cons u us =>
    have hscan : nearestScan d wps current visited =
        (runMin (idxDist d wps current) us u,
         some (idxDist d wps current (runMin (idxDist d wps current) us u))) := by
      rw [nearestScan_eq_fold, nearestFold_none_spec, hf]
    rw [hscan]
    rw [hf] at hsortedf
    obtain ⟨hmem, hle, hall, hfirst⟩ := runMin_spec (idxDist d wps current) us u
    set np := runMin (idxDist d wps current) us u with hnp
    have hnpmem : np ∈ (List.range wps.length).filter (fun j => !visited j) := by
      rw [hf]
      rcases hmem with he | hm
      · rw [he]; exact List.mem_cons_self u us
      · exact List.mem_cons_of_mem _ hm
    have hnprange : np < wps.length :=
      List.mem_range.mp (List.mem_filter.mp hnpmem).1
    have hnpunvis : visited np = false := by
      have hb := (List.mem_filter.mp hnpmem).2
      simpa using hb
    have hminall : ∀ j, j < wps.length → visited j = false →
        idxDist d wps current np ≤ idxDist d wps current j := by
      intro j hjn hjv
      have hjf : j ∈ (List.range wps.length).filter (fun j => !visited j) :=
        List.mem_filter.mpr ⟨List.mem_range.mpr hjn, by simp [hjv]⟩
      rw [hf] at hjf
      rcases List.mem_cons.mp hjf with rfl | hju
      · exact hle
      · exact hall j hju
    refine ⟨hnprange, hnpunvis, rfl, hminall, ?_⟩
    intro j hjnp hjv
    have hjn : j < wps.length := lt_trans hjnp hnprange
    have hjf : j ∈ (List.range wps.length).filter (fun j => !visited j) :=
      List.mem_filter.mpr ⟨List.mem_range.mpr hjn, by simp [hjv]⟩
    rw [hf] at hjf
    by_cases hcase : np = u
    · exfalso
      rcases List.mem_cons.mp hjf with rfl | hju
      · rw [hcase] at hjnp
        exact lt_irrefl j hjnp
      · have : u < j := (List.pairwise_cons.mp hsortedf).1 j hju
        rw [← hcase] at this
        omega
    · obtain ⟨pre, post, hsplit, hltu, hpre⟩ := hfirst hcase
      rcases List.mem_cons.mp hjf with rfl | hju
      · exact hltu
      · rw [hsplit] at hju
        rcases List.mem_append.mp hju with hjpre | hjrest
        · exact hpre j hjpre
        · rcases List.mem_cons.mp hjrest with rfl | hjpost
          · exact absurd hjnp (lt_irrefl np)
          · exfalso
            have hp2 := (List.pairwise_cons.mp hsortedf).2
            rw [hsplit] at hp2
            have hnppost := (List.pairwise_append.mp hp2).2.1
            have : np < j := (List.pairwise_cons.mp hnppost).1 j hjpost
            omega

theorem take_set_succ {γ : Type} (l : List γ) (s : ℕ) (x : γ)
    (h : s < l.length) : (l.set s x).take (s + 1) = l.take s ++ [x] := by
  rw [List.set_eq_take_append_cons_drop, if_pos h,
    List.take_append_eq_append_take]
  have h1 : (l.take s).length = s := by
    rw [List.length_take]
    omega
  rw [List.take_of_length_le (by omega), h1]
  have h2 : s + 1 - s = 1 := by omega
  rw [h2]
  simp

/-- Invariant of the greedy outer loop: if the first `s` slots of the path
hold exactly the visited indices (no duplicates, all in range) then after the
remaining `m` steps the first `s + m` slots still do. -/
theorem greedy_fold_inv {α : Type} [Inhabited α] (d : α → α → ℚ)
    (wps : List α) :
    ∀ (m s : ℕ) (path : List ℕ) (visited : ℕ → Bool) (current : ℕ),
      s + m = wps.length → path.length = wps.length →
      (∀ x, visited x = true ↔ x ∈ path.take s) →
      (path.take s).Nodup →
      (∀ x ∈ path.take s, x < wps.length) →
      current ∈ path.take s →
      (((List.range' s m).foldl (greedyStep d wps)
          (path, visited, current)).1.length = wps.length ∧
       (((List.range' s m).foldl (greedyStep d wps)
          (path, visited, current)).1.take (s + m)).Nodup ∧
       (∀ x ∈ ((List.range' s m).foldl (greedyStep d wps)
          (path, visited, current)).1.take (s + m), x < wps.length)) := by
  intro m
  induction m with
  | zero =>
    intro s path visited current hsm hlen hvis hnd hbound hcur
    simpa using ⟨hlen, hnd, hbound⟩
  | succ m ih =>
    intro s path visited current hsm hlen hvis hnd hbound hcur
    have hex : ∃ j, j < wps.length ∧ visited j = false := by
      by_contra hno
      push_neg at hno
      have hsub : List.range wps.length ⊆ path.take s := by
        intro x hx
        have hxn : x < wps.length := List.mem_range.mp hx
        have hvx : visited x = true := by
          cases hb : visited x with
          | true => rfl
          | false => exact absurd hb (hno x hxn)
        exact (hvis x).mp hvx
      have hle := ((List.nodup_range wps.length).subperm hsub).length_le
      rw [List.length_range] at hle
      have hts : (path.take s).length = s := by
        rw [List.length_take]
        omega
      omega
    obtain ⟨hnplt, hnpunvis, _, _, _⟩ :=
      nearestScan_spec d wps current visited hex
    have hcurvis : visited current = true := (hvis current).mpr hcur
    have hnpne : (nearestScan d wps current visited).1 ≠ current := by
      intro he
      rw [he, hcurvis] at hnpunvis
      exact absurd hnpunvis (by simp)
    have hslen : s < path.length := by omega
    have hstep : greedyStep d wps (path, visited, current) s =
        (path.set s (nearestScan d wps current visited).1,
         Function.update visited (nearestScan d wps current visited).1 true,
         (nearestScan d wps current visited).1) := by
      simp only [greedyStep]
      rw [if_pos hnpne]
    rw [List.range'_succ, List.foldl_cons, hstep]
    have htake := take_set_succ path s (nearestScan d wps current visited).1
      hslen
    have hnpnotin : (nearestScan d wps current visited).1 ∉ path.take s := by
      intro hmem
      have := (hvis _).mpr hmem
      rw [hnpunvis] at this
      exact absurd this (by simp)
    have hadd : s + (m + 1) = (s + 1) + m := by omega
    rw [hadd]
    refine ih (s + 1) (path.set s (nearestScan d wps current visited).1)
      (Function.update visited (nearestScan d wps current visited).1 true)
      (nearestScan d wps current visited).1
      (by omega) (by rw [List.length_set]; exact hlen) ?_ ?_ ?_ ?_
    · intro x
      by_cases hx : x = (nearestScan d wps current visited).1
      · subst hx
        rw [Function.update_same, htake]
        simp
      · rw [Function.update_noteq hx, htake]
        rw [hvis x]
        simp [hx]
    · rw [htake]
      refine (List.nodup_append).mpr ⟨hnd, List.nodup_singleton _, ?_⟩
      intro x hxs
      simp only [List.mem_singleton]
      intro he
      rw [he] at hxs
      exact hnpnotin hxs
    · rw [htake]
      intro x hx
      rcases List.mem_append.mp hx with hxs | hxnp
      · exact hbound x hxs
      · rw [List.mem_singleton.mp hxnp]
        exact hnplt
    · rw [htake]
      exact List.mem_append_right _ (List.mem_singleton.mpr rfl)

/-- The greedy construction always returns a permutation of `{0,…,n-1}` on a
non-empty waypoint list. -/
theorem construct_greedy_path_perm {α : Type} [Inhabited α] (d : α → α → ℚ)
    (wps : List α) (g : Rng) (h : wps ≠ []) :
    ((construct_greedy_path d wps g).1).Perm (List.range wps.length) := by
  have hn : 0 < wps.length := List.length_pos.mpr h
  · have hclt : (randint 0 (wps.length - 1) g).1 < wps.length := by
      show 0 + g.ints g.ipos % (wps.length - 1 + 1 - 0) < wps.length
      have hpos : 0 < wps.length - 1 + 1 - 0 := by omega
      have := Nat.mod_lt (g.ints g.ipos) hpos
      omega
    have hrw : (construct_greedy_path d wps g).1 =
        ((List.range' 1 (wps.length - 1)).foldl (greedyStep d wps)
          ((List.range wps.length).set 0 ((randint 0 (wps.length - 1) g).1),
           Function.update (fun _ => false)
             ((randint 0 (wps.length - 1) g).1) true,
           (randint 0 (wps.length - 1) g).1)).1 := rfl
    have htake1 : ((List.range wps.length).set 0
        ((randint 0 (wps.length - 1) g).1)).take 1 =
        [(randint 0 (wps.length - 1) g).1] := by
      have := take_set_succ (List.range wps.length) 0
        ((randint 0 (wps.length - 1) g).1)
        (by rw [List.length_range]; omega)
      simpa using this
    obtain ⟨hlen, hnd, hbound⟩ := greedy_fold_inv d wps (wps.length - 1) 1
      ((List.range wps.length).set 0 ((randint 0 (wps.length - 1) g).1))
      (Function.update (fun _ => false) ((randint 0 (wps.length - 1) g).1) true)
      ((randint 0 (wps.length - 1) g).1)
      (by omega)
      (by rw [List.length_set, List.length_range])
      (by
        intro x
        rw [htake1]
        by_cases hx : x = (randint 0 (wps.length - 1) g).1
        · subst hx
          rw [Function.update_same]
          simp
        · rw [Function.update_noteq hx]
          simp [hx])
      (by rw [htake1]; exact List.nodup_singleton _)
      (by
        rw [htake1]
        intro x hx
        rw [List.mem_singleton.mp hx]
        exact hclt)
      (by rw [htake1]; exact List.mem_singleton.mpr rfl)
    rw [hrw]
    have hfull : 1 + (wps.length - 1) = wps.length := by omega
    rw [hfull] at hnd hbound
    set r := ((List.range' 1 (wps.length - 1)).foldl (greedyStep d wps)
      ((List.range wps.length).set 0 ((randint 0 (wps.length - 1) g).1),
       Function.update (fun _ => false)
         ((randint 0 (wps.length - 1) g).1) true,
       (randint 0 (wps.length - 1) g).1)).1 with hrdef
    rw [List.take_of_length_le (by rw [hlen])] at hnd hbound
    have hsub : r ⊆ List.range wps.length := fun x hx =>
      List.mem_range.mpr (hbound x hx)
    exact (hnd.subperm hsub).perm_of_length_le
      (by rw [List.length_range, hlen])

/-- C3: for every non-empty waypoint list and every random draw,
`construct_greedy_path` returns a permutation of `{0,…,n-1}`, and its
selection scan always picks, among the unvisited candidates at minimal
distance from the current point, the one with the lowest index. -/
theorem construct_greedy_path_spec {α : Type} [Inhabited α] (d : α → α → ℚ)
    (wps : List α) (g : Rng) (h : wps ≠ []) : greedySpec d wps g := by
  constructor
  · exact construct_greedy_path_perm d wps g h
  · intro current visited hex
    exact nearestScan_spec d wps current visited hex

theorem construct_greedy_path_spec_witness :
    (([3, 5] : List ℕ) ≠ []) ∧
    greedySpec (fun a b : ℕ => (a : ℚ) * (b : ℚ)) [3, 5]
      ⟨fun _ => 1, fun _ => 0, 0, 0⟩ :=
  ⟨by simp,
   construct_greedy_path_spec (fun a b : ℕ => (a : ℚ) * (b : ℚ)) [3, 5]
     ⟨fun _ => 1, fun _ => 0, 0, 0⟩ (by simp)⟩

/-- C7 (amended): cooling happens exactly in the iterations that perform a
move.  In a non-stopped iteration whose two position draws are equal, the
`continue` skips the cooling line and the temperature is unchanged; otherwise
the temperature is multiplied by the cooling rate (whether or not the move is
accepted). -/
theorem saStep_cooling {α : Type} [Inhabited α] (d : α → α → ℚ)
    (expTest : ℚ → ℚ → ℚ → Bool) (cfg : AlgorithmConfig) (wps : List α)
    (st : SAState) (hstop : st.stopped = false) :
    ((randint 1 (wps.length - 1) st.g).1 =
        (randint 1 (wps.length - 1) (randint 1 (wps.length - 1) st.g).2).1 →
      (saStep d expTest cfg wps st).temp = st.temp) ∧
    ((randint 1 (wps.length - 1) st.g).1 ≠
        (randint 1 (wps.length - 1) (randint 1 (wps.length - 1) st.g).2).1 →
      (saStep d expTest cfg wps st).temp = st.temp * cfg.cooling_rate) := by
  constructor
  · intro heq
    simp [saStep, hstop, heq]
  · intro hne
    simp only [saStep, hstop, Bool.false_eq_true, if_false]
    rw [if_neg hne]
    repeat' split
    all_goals rfl

theorem saStep_cooling_witness :
    ((⟨[0, 1], 0, [0, 1], 0, 4, ⟨fun _ => 0, fun _ => 0, 0, 0⟩, false⟩ :
        SAState).stopped = false) ∧
    ((randint 1 (([0, 1] : List ℕ).length - 1)
          (⟨[0, 1], 0, [0, 1], 0, 4, ⟨fun _ => 0, fun _ => 0, 0, 0⟩, false⟩ :
            SAState).g).1 =
        (randint 1 (([0, 1] : List ℕ).length - 1)
          (randint 1 (([0, 1] : List ℕ).length - 1)
            (⟨[0, 1], 0, [0, 1], 0, 4, ⟨fun _ => 0, fun _ => 0, 0, 0⟩, false⟩ :
              SAState).g).2).1 →
      (saStep (fun _ _ : ℕ => (0 : ℚ)) (fun _ _ _ => true)
          ⟨100, 1 / 2, 4, 5, true, true⟩ [0, 1]
          ⟨[0, 1], 0, [0, 1], 0, 4, ⟨fun _ => 0, fun _ => 0, 0, 0⟩,
            false⟩).temp =
        (⟨[0, 1], 0, [0, 1], 0, 4, ⟨fun _ => 0, fun _ => 0, 0, 0⟩, false⟩ :
          SAState).temp) ∧
    ((randint 1 (([0, 1] : List ℕ).length - 1)
          (⟨[0, 1], 0, [0, 1], 0, 4, ⟨fun _ => 0, fun _ => 0, 0, 0⟩, false⟩ :
            SAState).g).1 ≠
        (randint 1 (([0, 1] : List ℕ).length - 1)
          (randint 1 (([0, 1] : List ℕ).length - 1)
            (⟨[0, 1], 0, [0, 1], 0, 4, ⟨fun _ => 0, fun _ => 0, 0, 0⟩, false⟩ :
              SAState).g).2).1 →
      (saStep (fun _ _ : ℕ => (0 : ℚ)) (fun _ _ _ => true)
          ⟨100, 1 / 2, 4, 5, true, true⟩ [0, 1]
          ⟨[0, 1], 0, [0, 1], 0, 4, ⟨fun _ => 0, fun _ => 0, 0, 0⟩,
            false⟩).temp =
        (⟨[0, 1], 0, [0, 1], 0, 4, ⟨fun _ => 0, fun _ => 0, 0, 0⟩, false⟩ :
            SAState).temp * (⟨100, 1 / 2, 4, 5, true, true⟩ :
          AlgorithmConfig).cooling_rate) :=
  ⟨rfl,
   saStep_cooling (fun _ _ : ℕ => (0 : ℚ)) (fun _ _ _ => true)
     ⟨100, 1 / 2, 4, 5, true, true⟩ [0, 1]
     ⟨[0, 1], 0, [0, 1], 0, 4, ⟨fun _ => 0, fun _ => 0, 0, 0⟩, false⟩ rfl⟩

/-- C7 counterexample: a run whose position draws always coincide performs
only no-op iterations; they count against the budget (here 5 iterations run
with no early break) yet the temperature never cools: it stays at the
initial 4 instead of the claimed `4 * (1/2)^5`. -/
theorem sa_temperature_counterexample :
    (saRun (fun _ _ : ℕ => (0 : ℚ)) (fun _ _ _ => true)
        ⟨100, 1 / 2, 4, 5, true, true⟩ [0, 1]
        ⟨fun _ => 0, fun _ => 0, 0, 0⟩).temp = 4 ∧
    (saRun (fun _ _ : ℕ => (0 : ℚ)) (fun _ _ _ => true)
        ⟨100, 1 / 2, 4, 5, true, true⟩ [0, 1]
        ⟨fun _ => 0, fun _ => 0, 0, 0⟩).stopped = false ∧
    (4 : ℚ) * (1 / 2) ^ 5 ≠ 4 := by
  refine ⟨by decide, by decide, by norm_num⟩


/-- The Metropolis clause characterization for any non-stopped iteration with
unequal draws, for an arbitrary acceptance test. -/
theorem metropolisSpec_holds {α : Type} [Inhabited α] (d : α → α → ℚ)
    (expTest : ℚ → ℚ → ℚ → Bool) (cfg : AlgorithmConfig) (wps : List α)
    (st : SAState) (hstop : st.stopped = false)
    (hne : (randint 1 (wps.length - 1) st.g).1 ≠
      (randint 1 (wps.length - 1) (randint 1 (wps.length - 1) st.g).2).1) :
    metropolisSpec d expTest cfg wps st := by
  simp only [metropolisSpec]
  refine ⟨?_, ?_, ?_⟩
  · intro hd
    constructor
    · simp only [saStep, hstop, Bool.false_eq_true, if_false]
      rw [if_neg hne, if_pos hd]
      rfl
    · simp only [saStep, hstop, Bool.false_eq_true, if_false]
      rw [if_neg hne, if_pos hd]
      rfl
  · intro hd ht
    constructor
    · simp only [saStep, hstop, Bool.false_eq_true, if_false]
      rw [if_neg hne, if_neg hd, if_neg ht]
      rfl
    · simp only [saStep, hstop, Bool.false_eq_true, if_false]
      rw [if_neg hne, if_neg hd, if_neg ht]
      rfl
  · intro hd ht
    constructor
    · intro hT
      constructor
      · simp only [saStep, hstop, Bool.false_eq_true, if_false]
        rw [if_neg hne, if_neg hd, if_pos ht, hT]
        rfl
      · simp only [saStep, hstop, Bool.false_eq_true, if_false]
        rw [if_neg hne, if_neg hd, if_pos ht, hT]
        rfl
    · intro hF
      constructor
      · simp only [saStep, hstop, Bool.false_eq_true, if_false]
        rw [if_neg hne, if_neg hd, if_pos ht, hF]
        rfl
      · simp only [saStep, hstop, Bool.false_eq_true, if_false]
        rw [if_neg hne, if_neg hd, if_pos ht, hF]
        rfl

/-- C8 (amended): the acceptance rule as the code implements it, for an
iteration that performs a move (unequal draws, not stopped).  A strictly
improving move (`delta < 0`) is accepted; a non-improving move with
`temp ≤ 1e-9` is rejected and restores the pre-move path and distance
exactly; a non-improving move with `temp > 1e-9` is accepted exactly when
the float test `u < exp(-delta/temp)` passes — in particular a `delta = 0`
move is accepted when `temp > 1e-9` (since `exp(0) = 1 > u`) but rejected
when `temp ≤ 1e-9`, contrary to the claim's unconditional acceptance of all
`delta ≤ 0` moves. -/
theorem saStep_metropolis {α : Type} [Inhabited α] (d : α → α → ℚ)
    (expTest : ℚ → ℚ → ℚ → Bool) (cfg : AlgorithmConfig) (wps : List α)
    (st : SAState) (hstop : st.stopped = false)
    (hne : (randint 1 (wps.length - 1) st.g).1 ≠
      (randint 1 (wps.length - 1) (randint 1 (wps.length - 1) st.g).2).1)
    (hexp : ∀ dlt t u : ℚ, expTest dlt t u = true ↔
      ((u : ℝ) < Real.exp (-(dlt : ℝ) / (t : ℝ))))
    (hu1 : (randunit (randint 1 (wps.length - 1)
      (randint 1 (wps.length - 1) st.g).2).2).1 < 1) :
    metropolisSpec d expTest cfg wps st ∧
    (calculate_path_distance d (extract_path wps
        (two_opt_swap st.current_path
          (min (randint 1 (wps.length - 1) st.g).1
            (randint 1 (wps.length - 1)
              (randint 1 (wps.length - 1) st.g).2).1)
          (max (randint 1 (wps.length - 1) st.g).1
            (randint 1 (wps.length - 1)
              (randint 1 (wps.length - 1) st.g).2).1))) -
        st.current_dist = 0 →
      st.temp > 1 / 1000000000 →
      (saStep d expTest cfg wps st).current_path =
        two_opt_swap st.current_path
          (min (randint 1 (wps.length - 1) st.g).1
            (randint 1 (wps.length - 1)
              (randint 1 (wps.length - 1) st.g).2).1)
          (max (randint 1 (wps.length - 1) st.g).1
            (randint 1 (wps.length - 1)
              (randint 1 (wps.length - 1) st.g).2).1)) := by
  have hms : metropolisSpec d expTest cfg wps st :=
    metropolisSpec_holds d expTest cfg wps st hstop hne
  refine ⟨hms, ?_⟩
  intro h0 ht
  have hd : ¬ (calculate_path_distance d (extract_path wps
      (two_opt_swap st.current_path
        (min (randint 1 (wps.length - 1) st.g).1
          (randint 1 (wps.length - 1)
            (randint 1 (wps.length - 1) st.g).2).1)
        (max (randint 1 (wps.length - 1) st.g).1
          (randint 1 (wps.length - 1)
            (randint 1 (wps.length - 1) st.g).2).1))) -
      st.current_dist < 0) := by
    rw [h0]
    exact lt_irrefl 0
  have hT : expTest (calculate_path_distance d (extract_path wps
      (two_opt_swap st.current_path
        (min (randint 1 (wps.length - 1) st.g).1
          (randint 1 (wps.length - 1)
            (randint 1 (wps.length - 1) st.g).2).1)
        (max (randint 1 (wps.length - 1) st.g).1
          (randint 1 (wps.length - 1)
            (randint 1 (wps.length - 1) st.g).2).1))) -
      st.current_dist) st.temp
      (randunit (randint 1 (wps.length - 1)
        (randint 1 (wps.length - 1) st.g).2).2).1 = true := by
    rw [hexp, h0]
    push_cast
    rw [neg_zero, zero_div, Real.exp_zero]
    exact_mod_cast hu1
  exact (((hms.2.2 hd ht).1) hT).1

theorem saStep_metropolis_witness :
    ((⟨[0, 1, 2], 0, [0, 1, 2], 0, 4, ⟨fun k => k, fun _ => 0, 0, 0⟩, false⟩ :
        SAState).stopped = false) ∧
    ((randint 1 (([0, 1, 2] : List ℕ).length - 1)
        (⟨[0, 1, 2], 0, [0, 1, 2], 0, 4, ⟨fun k => k, fun _ => 0, 0, 0⟩,
          false⟩ : SAState).g).1 ≠
      (randint 1 (([0, 1, 2] : List ℕ).length - 1)
        (randint 1 (([0, 1, 2] : List ℕ).length - 1)
          (⟨[0, 1, 2], 0, [0, 1, 2], 0, 4, ⟨fun k => k, fun _ => 0, 0, 0⟩,
            false⟩ : SAState).g).2).1) ∧
    (∀ dlt t u : ℚ,
      (fun dlt t u : ℚ =>
        decide ((u : ℝ) < Real.exp (-(dlt : ℝ) / (t : ℝ)))) dlt t u = true ↔
      ((u : ℝ) < Real.exp (-(dlt : ℝ) / (t : ℝ)))) ∧
    ((randunit (randint 1 (([0, 1, 2] : List ℕ).length - 1)
        (randint 1 (([0, 1, 2] : List ℕ).length - 1)
          (⟨[0, 1, 2], 0, [0, 1, 2], 0, 4, ⟨fun k => k, fun _ => 0, 0, 0⟩,
            false⟩ : SAState).g).2).2).1 < 1) ∧
    metropolisSpec (fun _ _ : ℕ => (0 : ℚ))
      (fun dlt t u : ℚ =>
        decide ((u : ℝ) < Real.exp (-(dlt : ℝ) / (t : ℝ))))
      ⟨100, 1 / 2, 4, 5, true, true⟩ [0, 1, 2]
      ⟨[0, 1, 2], 0, [0, 1, 2], 0, 4, ⟨fun k => k, fun _ => 0, 0, 0⟩,
        false⟩ :=
  ⟨rfl, by decide,
   fun dlt t u => by rw [decide_eq_true_eq],
   by decide,
   (saStep_metropolis (fun _ _ : ℕ => (0 : ℚ))
     (fun dlt t u : ℚ =>
       decide ((u : ℝ) < Real.exp (-(dlt : ℝ) / (t : ℝ))))
     ⟨100, 1 / 2, 4, 5, true, true⟩ [0, 1, 2]
     ⟨[0, 1, 2], 0, [0, 1, 2], 0, 4, ⟨fun k => k, fun _ => 0, 0, 0⟩, false⟩
     rfl (by decide)
     (fun dlt t u => by rw [decide_eq_true_eq])
     (by decide)).1⟩

/-- C8 counterexample: a proposed reversal with distance delta exactly 0 (so
`delta ≤ 0`) is rejected — the annealing state keeps the pre-move order
`[0,1,2]` instead of the reversed `[0,2,1]` — because the code tests
`delta < 0` strictly and the temperature `1e-10` fails the `> 1e-9` guard;
this happens even with the most permissive acceptance test, refuting
unconditional acceptance of `delta ≤ 0` moves. -/
theorem metropolis_zero_delta_rejected :
    (saRun (fun _ _ : ℕ => (0 : ℚ)) (fun _ _ _ => true)
        ⟨100, 1 / 2, 1 / 10000000000, 1, true, true⟩ [0, 1, 2]
        ⟨fun k => k, fun _ => 0, 0, 0⟩).current_path = [0, 1, 2] ∧
    two_opt_swap [0, 1, 2] 1 2 = [0, 2, 1] ∧
    calculate_path_distance (fun _ _ : ℕ => (0 : ℚ))
        (extract_path [0, 1, 2] (two_opt_swap [0, 1, 2] 1 2)) -
      calculate_path_distance (fun _ _ : ℕ => (0 : ℚ))
        (extract_path [0, 1, 2] [0, 1, 2]) = 0 ∧
    ([0, 2, 1] : List ℕ) ≠ [0, 1, 2] := by
  have hswap : two_opt_swap [0, 1, 2] 1 2 = [0, 2, 1] := by decide
  have hd1 : calculate_path_distance (fun _ _ : ℕ => (0 : ℚ))
      (extract_path [0, 1, 2] [0, 2, 1]) = 0 := by
    simp [calculate_path_distance, extract_path]
  have hd0 : calculate_path_distance (fun _ _ : ℕ => (0 : ℚ))
      (extract_path [0, 1, 2] [0, 1, 2]) = 0 := by
    simp [calculate_path_distance, extract_path]
  refine ⟨?_, hswap, by rw [hswap, hd1, hd0]; norm_num, by decide⟩
  have hrun : saRun (fun _ _ : ℕ => (0 : ℚ)) (fun _ _ _ => true)
      ⟨100, 1 / 2, 1 / 10000000000, 1, true, true⟩ [0, 1, 2]
      ⟨fun k => k, fun _ => 0, 0, 0⟩ =
      saStep (fun _ _ : ℕ => (0 : ℚ)) (fun _ _ _ => true)
        ⟨100, 1 / 2, 1 / 10000000000, 1, true, true⟩ [0, 1, 2]
        ⟨[0, 1, 2],
         calculate_path_distance (fun _ _ : ℕ => (0 : ℚ))
           (extract_path [0, 1, 2] [0, 1, 2]),
         [0, 1, 2],
         calculate_path_distance (fun _ _ : ℕ => (0 : ℚ))
           (extract_path [0, 1, 2] [0, 1, 2]),
         1 / 10000000000, ⟨fun k => k, fun _ => 0, 1, 0⟩, false⟩ := rfl
  rw [hrun]
  have hms := metropolisSpec_holds (fun _ _ : ℕ => (0 : ℚ))
    (fun _ _ _ => true) ⟨100, 1 / 2, 1 / 10000000000, 1, true, true⟩
    [0, 1, 2]
    ⟨[0, 1, 2],
     calculate_path_distance (fun _ _ : ℕ => (0 : ℚ))
       (extract_path [0, 1, 2] [0, 1, 2]),
     [0, 1, 2],
     calculate_path_distance (fun _ _ : ℕ => (0 : ℚ))
       (extract_path [0, 1, 2] [0, 1, 2]),
     1 / 10000000000, ⟨fun k => k, fun _ => 0, 1, 0⟩, false⟩
    rfl (by decide)
  simp only [metropolisSpec] at hms
  refine (hms.2.1 ?_ ?_).1
  · have hmm : two_opt_swap [0, 1, 2]
        (min (randint 1 (([0, 1, 2] : List ℕ).length - 1)
          (⟨fun k => k, fun _ => 0, 1, 0⟩ : Rng)).1
          (randint 1 (([0, 1, 2] : List ℕ).length - 1)
            (randint 1 (([0, 1, 2] : List ℕ).length - 1)
              (⟨fun k => k, fun _ => 0, 1, 0⟩ : Rng)).2).1)
        (max (randint 1 (([0, 1, 2] : List ℕ).length - 1)
          (⟨fun k => k, fun _ => 0, 1, 0⟩ : Rng)).1
          (randint 1 (([0, 1, 2] : List ℕ).length - 1)
            (randint 1 (([0, 1, 2] : List ℕ).length - 1)
              (⟨fun k => k, fun _ => 0, 1, 0⟩ : Rng)).2).1) = [0, 2, 1] := by
      decide
    rw [hmm, hd1, hd0]
    norm_num
  · norm_num

theorem randint_agree (lo hi : ℕ) (g1 g2 : Rng) (ib ub : ℕ)
    (h : RngAgree g1 g2 ib ub) (hip : g1.ipos < ib) :
    (randint lo hi g1).1 = (randint lo hi g2).1 ∧
    RngAgree (randint lo hi g1).2 (randint lo hi g2).2 ib ub ∧
    (randint lo hi g1).2.ipos = g1.ipos + 1 ∧
    (randint lo hi g1).2.upos = g1.upos ∧
    (randint lo hi g2).2.ipos = g2.ipos + 1 ∧
    (randint lo hi g2).2.upos = g2.upos := by
  obtain ⟨h1, h2, h3, h4⟩ := h
  refine ⟨?_, ⟨by simp [randint, h1], by simp [randint, h2],
    fun k hk => h3 k hk, fun k hk => h4 k hk⟩, rfl, rfl, rfl, rfl⟩
  show lo + g1.ints g1.ipos % (hi + 1 - lo) =
    lo + g2.ints g2.ipos % (hi + 1 - lo)
  rw [← h1, h3 g1.ipos hip]

theorem randunit_agree (g1 g2 : Rng) (ib ub : ℕ)
    (h : RngAgree g1 g2 ib ub) (hup : g1.upos < ub) :
    (randunit g1).1 = (randunit g2).1 ∧
    RngAgree (randunit g1).2 (randunit g2).2 ib ub ∧
    (randunit g1).2.ipos = g1.ipos ∧
    (randunit g1).2.upos = g1.upos + 1 ∧
    (randunit g2).2.ipos = g2.ipos ∧
    (randunit g2).2.upos = g2.upos + 1 := by
  obtain ⟨h1, h2, h3, h4⟩ := h
  refine ⟨?_, ⟨by simp [randunit, h1], by simp [randunit, h2],
    fun k hk => h3 k hk, fun k hk => h4 k hk⟩, rfl, rfl, rfl, rfl⟩
  show g1.uniforms g1.upos = g2.uniforms g2.upos
  rw [← h2, h4 g1.upos hup]

/-- One annealing iteration preserves state-agreement between two runs whose
random sources agree on the not-yet-consumed window: the iteration consumes
at most two integer draws and one uniform draw. -/
theorem saStep_agree {α : Type} [Inhabited α] (d : α → α → ℚ)
    (expTest : ℚ → ℚ → ℚ → Bool) (cfg : AlgorithmConfig) (wps : List α)
    (s1 s2 : SAState) (ib ub : ℕ)
    (heq : SAStateEqExceptRng s1 s2) (hag : RngAgree s1.g s2.g ib ub)
    (hib : s1.g.ipos + 2 ≤ ib) (hub : s1.g.upos + 1 ≤ ub) :
    SAStateEqExceptRng (saStep d expTest cfg wps s1)
      (saStep d expTest cfg wps s2) ∧
    RngAgree (saStep d expTest cfg wps s1).g
      (saStep d expTest cfg wps s2).g ib ub ∧
    (saStep d expTest cfg wps s1).g.ipos ≤ s1.g.ipos + 2 ∧
    (saStep d expTest cfg wps s1).g.upos ≤ s1.g.upos + 1 := by
  obtain ⟨e1, e2, e3, e4, e5, e6⟩ := heq
  cases hb : s1.stopped with
  | true =>
    have hb2 : s2.stopped = true := by rw [← e6]; exact hb
    simp only [saStep, hb, hb2, if_true]
    exact ⟨⟨e1, e2, e3, e4, e5, e6⟩, hag, by omega, by omega⟩
  | false =>
    have hb2 : s2.stopped = false := by rw [← e6]; exact hb
    have htmpeq : s1.temp * cfg.cooling_rate = s2.temp * cfg.cooling_rate := by
      rw [e5]
    have hstopeq : decide (s1.temp * cfg.cooling_rate < 1) =
        decide (s2.temp * cfg.cooling_rate < 1) := by
      rw [e5]
    obtain ⟨hAv, hAag, hA1i, hA1u, hA2i, hA2u⟩ :=
      randint_agree 1 (wps.length - 1) s1.g s2.g ib ub hag (by omega)
    obtain ⟨hBv, hBag, hB1i, hB1u, hB2i, hB2u⟩ :=
      randint_agree 1 (wps.length - 1) (randint 1 (wps.length - 1) s1.g).2
        (randint 1 (wps.length - 1) s2.g).2 ib ub hAag (by omega)
    simp only [saStep, hb, hb2, Bool.false_eq_true, if_false]
    by_cases hij : (randint 1 (wps.length - 1) s1.g).1 =
        (randint 1 (wps.length - 1) (randint 1 (wps.length - 1) s1.g).2).1
    · have hij2 : (randint 1 (wps.length - 1) s2.g).1 =
          (randint 1 (wps.length - 1)
            (randint 1 (wps.length - 1) s2.g).2).1 := by
        rw [← hAv, ← hBv]; exact hij
      rw [if_pos hij, if_pos hij2]
      refine ⟨⟨e1, e2, e3, e4, e5, rfl⟩, hBag, ?_, ?_⟩
      · show (randint 1 (wps.length - 1)
          (randint 1 (wps.length - 1) s1.g).2).2.ipos ≤ s1.g.ipos + 2
        omega
      · show (randint 1 (wps.length - 1)
          (randint 1 (wps.length - 1) s1.g).2).2.upos ≤ s1.g.upos + 1
        omega
    · have hij2 : ¬ (randint 1 (wps.length - 1) s2.g).1 =
          (randint 1 (wps.length - 1)
            (randint 1 (wps.length - 1) s2.g).2).1 := by
        rw [← hAv, ← hBv]; exact hij
      rw [if_neg hij, if_neg hij2]
      set m1 := two_opt_swap s1.current_path
        (min (randint 1 (wps.length - 1) s1.g).1
          (randint 1 (wps.length - 1)
            (randint 1 (wps.length - 1) s1.g).2).1)
        (max (randint 1 (wps.length - 1) s1.g).1
          (randint 1 (wps.length - 1)
            (randint 1 (wps.length - 1) s1.g).2).1) with hm1
      set m2 := two_opt_swap s2.current_path
        (min (randint 1 (wps.length - 1) s2.g).1
          (randint 1 (wps.length - 1)
            (randint 1 (wps.length - 1) s2.g).2).1)
        (max (randint 1 (wps.length - 1) s2.g).1
          (randint 1 (wps.length - 1)
            (randint 1 (wps.length - 1) s2.g).2).1) with hm2
      have hmv : m2 = m1 := by
        rw [hm1, hm2, ← e1, ← hAv, ← hBv]
      set nd1 := calculate_path_distance d (extract_path wps m1) with he1
      set nd2 := calculate_path_distance d (extract_path wps m2) with he2
      have hndeq : nd2 = nd1 := by rw [he1, he2, hmv]
      have hdeq : nd2 - s2.current_dist = nd1 - s1.current_dist := by
        rw [hndeq, ← e2]
      by_cases hdlt : nd1 - s1.current_dist < 0
      · have hdlt2 : nd2 - s2.current_dist < 0 := by
          rw [hdeq]; exact hdlt
        rw [if_pos hdlt, if_pos hdlt, if_pos hdlt2, if_pos hdlt2]
        refine ⟨⟨hmv.symm, hndeq.symm, ?_, ?_, htmpeq, hstopeq⟩,
          hBag,
          by
            show (randint 1 (wps.length - 1)
              (randint 1 (wps.length - 1) s1.g).2).2.ipos ≤ s1.g.ipos + 2
            omega,
          by
            show (randint 1 (wps.length - 1)
              (randint 1 (wps.length - 1) s1.g).2).2.upos ≤ s1.g.upos + 1
            omega⟩
        · show (if nd1 < s1.best_dist then m1 else s1.best_path) =
            (if nd2 < s2.best_dist then m2 else s2.best_path)
          rw [hndeq, hmv, ← e3, ← e4]
        · show (if nd1 < s1.best_dist then nd1 else s1.best_dist) =
            (if nd2 < s2.best_dist then nd2 else s2.best_dist)
          rw [hndeq, ← e4]
      · have hdlt2 : ¬ nd2 - s2.current_dist < 0 := by
          rw [hdeq]; exact hdlt
        rw [if_neg hdlt, if_neg hdlt, if_neg hdlt2, if_neg hdlt2]
        by_cases htmp : s1.temp > 1 / 1000000000
        · have htmp2 : s2.temp > 1 / 1000000000 := by
            rw [← e5]; exact htmp
          rw [if_pos htmp, if_pos htmp, if_pos htmp2, if_pos htmp2]
          obtain ⟨huv, huag, hu1i, hu1u, hu2i, hu2u⟩ :=
            randunit_agree (randint 1 (wps.length - 1)
                (randint 1 (wps.length - 1) s1.g).2).2
              (randint 1 (wps.length - 1)
                (randint 1 (wps.length - 1) s2.g).2).2 ib ub hBag
              (by omega)
          by_cases hacc : expTest (nd1 - s1.current_dist) s1.temp
              (randunit (randint 1 (wps.length - 1)
                (randint 1 (wps.length - 1) s1.g).2).2).1 = true
          · have hacc2 : expTest (nd2 - s2.current_dist) s2.temp
                (randunit (randint 1 (wps.length - 1)
                  (randint 1 (wps.length - 1) s2.g).2).2).1 = true := by
              rw [hdeq, ← e5, ← huv]; exact hacc
            rw [hacc, hacc2]
            refine ⟨⟨hmv.symm, hndeq.symm, ?_, ?_, htmpeq, hstopeq⟩,
              huag,
              by
                show (randunit (randint 1 (wps.length - 1)
                  (randint 1 (wps.length - 1) s1.g).2).2).2.ipos ≤
                  s1.g.ipos + 2
                omega,
              by
                show (randunit (randint 1 (wps.length - 1)
                  (randint 1 (wps.length - 1) s1.g).2).2).2.upos ≤
                  s1.g.upos + 1
                omega⟩
            · show (if nd1 < s1.best_dist then m1 else s1.best_path) =
                (if nd2 < s2.best_dist then m2 else s2.best_path)
              rw [hndeq, hmv, ← e3, ← e4]
            · show (if nd1 < s1.best_dist then nd1 else s1.best_dist) =
                (if nd2 < s2.best_dist then nd2 else s2.best_dist)
              rw [hndeq, ← e4]
          · have hf1 : expTest (nd1 - s1.current_dist) s1.temp
                (randunit (randint 1 (wps.length - 1)
                  (randint 1 (wps.length - 1) s1.g).2).2).1 = false := by
              rw [← Bool.not_eq_true]; exact hacc
            have hf2 : expTest (nd2 - s2.current_dist) s2.temp
                (randunit (randint 1 (wps.length - 1)
                  (randint 1 (wps.length - 1) s2.g).2).2).1 = false := by
              rw [hdeq, ← e5, ← huv]; exact hf1
            rw [hf1, hf2]
            refine ⟨⟨e1, e2, e3, e4, htmpeq, hstopeq⟩,
              huag, ?_, ?_⟩
            · show (randunit (randint 1 (wps.length - 1)
                (randint 1 (wps.length - 1) s1.g).2).2).2.ipos ≤
                s1.g.ipos + 2
              omega
            · show (randunit (randint 1 (wps.length - 1)
                (randint 1 (wps.length - 1) s1.g).2).2).2.upos ≤
                s1.g.upos + 1
              omega
        · have htmp2 : ¬ s2.temp > 1 / 1000000000 := by
            rw [← e5]; exact htmp
          rw [if_neg htmp, if_neg htmp, if_neg htmp2, if_neg htmp2]
          refine ⟨⟨e1, e2, e3, e4, htmpeq, hstopeq⟩,
            hBag, ?_, ?_⟩
          · show (randint 1 (wps.length - 1)
              (randint 1 (wps.length - 1) s1.g).2).2.ipos ≤ s1.g.ipos + 2
            omega
          · show (randint 1 (wps.length - 1)
              (randint 1 (wps.length - 1) s1.g).2).2.upos ≤ s1.g.upos + 1
            omega

theorem saIter_agree {α : Type} [Inhabited α] (d : α → α → ℚ)
    (expTest : ℚ → ℚ → ℚ → Bool) (cfg : AlgorithmConfig) (wps : List α) :
    ∀ (k : ℕ) (s1 s2 : SAState) (ib ub : ℕ),
      SAStateEqExceptRng s1 s2 → RngAgree s1.g s2.g ib ub →
      s1.g.ipos + 2 * k ≤ ib → s1.g.upos + k ≤ ub →
      SAStateEqExceptRng ((saStep d expTest cfg wps)^[k] s1)
        ((saStep d expTest cfg wps)^[k] s2) ∧
      RngAgree ((saStep d expTest cfg wps)^[k] s1).g
        ((saStep d expTest cfg wps)^[k] s2).g ib ub := by
  intro k
  induction k with
  | zero =>
    intro s1 s2 ib ub heq hag _ _
    simpa using ⟨heq, hag⟩
  | succ k ih =>
    intro s1 s2 ib ub heq hag hib hub
    rw [Function.iterate_succ_apply, Function.iterate_succ_apply]
    obtain ⟨heq2, hag2, hi1, hu1⟩ :=
      saStep_agree d expTest cfg wps s1 s2 ib ub heq hag (by omega) (by omega)
    exact ih (saStep d expTest cfg wps s1) (saStep d expTest cfg wps s2)
      ib ub heq2 hag2 (by omega) (by omega)

/-- C9 (amended): simulated annealing is a deterministic function of the
consumed random draws.  Two runs whose ambient random-source states sit at
the same read positions and whose underlying streams agree on the window the
run can consume (one integer draw for the greedy start plus at most two
integer draws and one uniform draw per iteration) return the same best
permutation.  The code offers no way to inject such a source — it reads the
ambient module state, which `RoutePlanner.__init__` reseeds from system
entropy — so reproducibility holds only at the level of the ambient state,
not of any caller-controllable seed. -/
theorem simulated_annealing_replay {α : Type} [Inhabited α] (d : α → α → ℚ)
    (expTest : ℚ → ℚ → ℚ → Bool) (cfg : AlgorithmConfig) (wps : List α)
    (g1 g2 : Rng)
    (hag : RngAgree g1 g2
      (g1.ipos + 1 +
        2 * min cfg.max_iterations (wps.length * wps.length * 50))
      (g1.upos + min cfg.max_iterations (wps.length * wps.length * 50))) :
    (simulated_annealing d expTest cfg wps g1).1 =
      (simulated_annealing d expTest cfg wps g2).1 := by
  obtain ⟨hAv, hAag, hA1i, hA1u, hA2i, hA2u⟩ :=
    randint_agree 0 (wps.length - 1) g1 g2 _ _ hag (by omega)
  have hpath : (construct_greedy_path d wps g1).1 =
      (construct_greedy_path d wps g2).1 := by
    show ((List.range' 1 (wps.length - 1)).foldl (greedyStep d wps)
        ((List.range wps.length).set 0 ((randint 0 (wps.length - 1) g1).1),
         Function.update (fun _ => false)
           ((randint 0 (wps.length - 1) g1).1) true,
         (randint 0 (wps.length - 1) g1).1)).1 =
      ((List.range' 1 (wps.length - 1)).foldl (greedyStep d wps)
        ((List.range wps.length).set 0 ((randint 0 (wps.length - 1) g2).1),
         Function.update (fun _ => false)
           ((randint 0 (wps.length - 1) g2).1) true,
         (randint 0 (wps.length - 1) g2).1)).1
    rw [hAv]
  have hfin := saIter_agree d expTest cfg wps
    (min cfg.max_iterations (wps.length * wps.length * 50))
    ⟨(construct_greedy_path d wps g1).1,
     calculate_path_distance d
       (extract_path wps (construct_greedy_path d wps g1).1),
     (construct_greedy_path d wps g1).1,
     calculate_path_distance d
       (extract_path wps (construct_greedy_path d wps g1).1),
     cfg.initial_temperature, (construct_greedy_path d wps g1).2, false⟩
    ⟨(construct_greedy_path d wps g2).1,
     calculate_path_distance d
       (extract_path wps (construct_greedy_path d wps g2).1),
     (construct_greedy_path d wps g2).1,
     calculate_path_distance d
       (extract_path wps (construct_greedy_path d wps g2).1),
     cfg.initial_temperature, (construct_greedy_path d wps g2).2, false⟩
    (g1.ipos + 1 + 2 * min cfg.max_iterations (wps.length * wps.length * 50))
    (g1.upos + min cfg.max_iterations (wps.length * wps.length * 50))
    ⟨hpath, by rw [hpath], hpath, by rw [hpath], rfl, rfl⟩
    hAag
    (by
      show g1.ipos + 1 + 2 * _ ≤ _
      omega)
    (by
      show g1.upos + _ ≤ _
      omega)
  exact hfin.1.2.2.1

theorem simulated_annealing_replay_witness :
    RngAgree ⟨fun _ => 0, fun _ => 0, 0, 0⟩ ⟨fun _ => 0, fun _ => 1, 0, 0⟩
      ((⟨fun _ => 0, fun _ => 0, 0, 0⟩ : Rng).ipos + 1 +
        2 * min (⟨100, 1 / 2, 4, 0, true, true⟩ :
          AlgorithmConfig).max_iterations
          (([7, 9] : List ℕ).length * ([7, 9] : List ℕ).length * 50))
      ((⟨fun _ => 0, fun _ => 0, 0, 0⟩ : Rng).upos +
        min (⟨100, 1 / 2, 4, 0, true, true⟩ :
          AlgorithmConfig).max_iterations
          (([7, 9] : List ℕ).length * ([7, 9] : List ℕ).length * 50)) ∧
    (simulated_annealing (fun _ _ : ℕ => (0 : ℚ)) (fun _ _ _ => true)
        ⟨100, 1 / 2, 4, 0, true, true⟩ [7, 9]
        ⟨fun _ => 0, fun _ => 0, 0, 0⟩).1 =
      (simulated_annealing (fun _ _ : ℕ => (0 : ℚ)) (fun _ _ _ => true)
        ⟨100, 1 / 2, 4, 0, true, true⟩ [7, 9]
        ⟨fun _ => 0, fun _ => 1, 0, 0⟩).1 :=
  ⟨⟨rfl, rfl, fun k _ => rfl,
    fun k hk => absurd (show k < 0 from hk) (Nat.not_lt_zero k)⟩,
   simulated_annealing_replay (fun _ _ : ℕ => (0 : ℚ)) (fun _ _ _ => true)
     ⟨100, 1 / 2, 4, 0, true, true⟩ [7, 9]
     ⟨fun _ => 0, fun _ => 0, 0, 0⟩ ⟨fun _ => 0, fun _ => 1, 0, 0⟩
     ⟨rfl, rfl, fun k _ => rfl,
      fun k hk => absurd (show k < 0 from hk) (Nat.not_lt_zero k)⟩⟩

/-- C9 counterexample: the annealing output is a function of the ambient
random-module state, not of any injectable seed.  Two calls identical in
every argument the API exposes (same waypoints, same configuration) but made
under different ambient stream states return different permutations. -/
theorem sa_ambient_state_counterexample :
    (simulated_annealing (fun _ _ : ℕ => (0 : ℚ)) (fun _ _ _ => true)
        ⟨100, 1 / 2, 4, 3, true, true⟩ [0, 1]
        ⟨fun _ => 0, fun _ => 0, 0, 0⟩).1 = [0, 1] ∧
    (simulated_annealing (fun _ _ : ℕ => (0 : ℚ)) (fun _ _ _ => true)
        ⟨100, 1 / 2, 4, 3, true, true⟩ [0, 1]
        ⟨fun _ => 1, fun _ => 0, 0, 0⟩).1 = [1, 0] ∧
    ([0, 1] : List ℕ) ≠ [1, 0] :=
  ⟨by decide, by decide, by decide⟩

theorem two_opt_swap_perm (p : List ℕ) (i j : ℕ) :
    (two_opt_swap p i j).Perm p := by
  unfold two_opt_swap
  by_cases h : i < j
  · rw [if_pos h]
    have hsplit : p.take i ++ ((p.take (j + 1)).drop i) ++ p.drop (j + 1)
        = p := by
      have h1 : p.take i = (p.take (j + 1)).take i := by
        rw [List.take_take]
        have hmin : min i (j + 1) = i := by omega
        rw [hmin]
      rw [h1, List.take_append_drop, List.take_append_drop]
    have hstep : (p.take i ++ ((p.take (j + 1)).drop i).reverse ++
        p.drop (j + 1)).Perm
        (p.take i ++ ((p.take (j + 1)).drop i) ++ p.drop (j + 1)) :=
      List.Perm.append
        (List.Perm.append (List.Perm.refl _) (List.reverse_perm _))
        (List.Perm.refl _)
    rw [hsplit] at hstep
    exact hstep
  · rw [if_neg h]

theorem filter_length_strict {γ : Type} (p q : γ → Bool)
    (hpq : ∀ x, p x = true → q x = true) :
    ∀ (l : List γ) (x : γ), x ∈ l → q x = true → p x = false →
      (l.filter p).length < (l.filter q).length := by
  intro l
  induction l with
  | nil => intro x hx; exact absurd hx (List.not_mem_nil x)
  | cons a t ih =>
    intro x hx hqx hpx
    rcases List.mem_cons.mp hx with rfl | hxt
    · rw [List.filter_cons_of_pos hqx, List.filter_cons_of_neg (by rw [hpx]; simp)]
      have hle : (t.filter p).length ≤ (t.filter q).length :=
        (List.monotone_filter_right t hpq).length_le
      simpa using Nat.lt_succ_of_le hle
    · cases hpa : p a with
      | true =>
        rw [List.filter_cons_of_pos hpa, List.filter_cons_of_pos (hpq a hpa)]
        simpa using ih x hxt hqx hpx
      | false =>
        rw [List.filter_cons_of_neg (by rw [hpa]; simp)]
        have hlt := ih x hxt hqx hpx
        cases hqa : q a with
        | true =>
          rw [List.filter_cons_of_pos hqa]
          simp only [List.length_cons]
          omega
        | false =>
          rw [List.filter_cons_of_neg (by rw [hqa]; simp)]
          exact hlt

/-- The strictly-decreasing measure of the 2-opt loop: the number of
permutations of the current path strictly closer than the current best. -/
theorem twoOpt_measure_lt {α : Type} [Inhabited α] (d : α → α → ℚ)
    (wps : List α) (p q : List ℕ) (b bq : ℚ) (hq : q.Perm p)
    (hfq : orderCost d wps q = bq) (hlt : bq < b) :
    ((q.permutations).filter
        (fun x => decide (orderCost d wps x < bq))).length <
      ((p.permutations).filter
        (fun x => decide (orderCost d wps x < b))).length := by
  have hperm : (q.permutations).Perm p.permutations := hq.permutations
  have heq : ((q.permutations).filter
      (fun x => decide (orderCost d wps x < bq))).length =
      ((p.permutations).filter
        (fun x => decide (orderCost d wps x < bq))).length :=
    (hperm.filter _).length_eq
  rw [heq]
  refine filter_length_strict _ _ ?_ p.permutations q
    (List.mem_permutations.mpr hq) ?_ ?_
  · intro x hx
    rw [decide_eq_true_eq] at hx
    rw [decide_eq_true_eq]
    exact lt_trans hx hlt
  · rw [decide_eq_true_eq, hfq]
    exact hlt
  · rw [decide_eq_false_iff_not, hfq]
    exact lt_irrefl bq

theorem sweepFold_char {α : Type} [Inhabited α] (d : α → α → ℚ)
    (wps : List α) :
    ∀ (l : List (ℕ × ℕ)) (st : List ℕ × ℚ × Bool),
      l.foldl (sweepStep d wps) st = st ∨
      ((l.foldl (sweepStep d wps) st).2.2 = true ∧
       (l.foldl (sweepStep d wps) st).2.1 =
         orderCost d wps (l.foldl (sweepStep d wps) st).1 ∧
       (l.foldl (sweepStep d wps) st).2.1 < st.2.1 ∧
       ((l.foldl (sweepStep d wps) st).1).Perm st.1) := by
  intro l
  induction l with
  | nil => intro st; exact Or.inl rfl
  | cons ij t ih =>
    intro st
    rw [List.foldl_cons]
    by_cases hc : calculate_path_distance d
        (extract_path wps (two_opt_swap st.1 ij.1 ij.2)) < st.2.1
    · have hstep : sweepStep d wps st ij =
          (two_opt_swap st.1 ij.1 ij.2,
           calculate_path_distance d
             (extract_path wps (two_opt_swap st.1 ij.1 ij.2)), true) := by
        unfold sweepStep
        rw [if_pos hc]
      rw [hstep]
      rcases ih (two_opt_swap st.1 ij.1 ij.2,
        calculate_path_distance d
          (extract_path wps (two_opt_swap st.1 ij.1 ij.2)), true) with he | hr
      · rw [he]
        exact Or.inr ⟨rfl, rfl, hc, two_opt_swap_perm st.1 ij.1 ij.2⟩
      · refine Or.inr ⟨hr.1, hr.2.1, lt_trans hr.2.2.1 hc, ?_⟩
        exact hr.2.2.2.trans (two_opt_swap_perm st.1 ij.1 ij.2)
    · have hstep : sweepStep d wps st ij = st := by
        unfold sweepStep
        rw [if_neg hc]
      rw [hstep]
      exact ih st

theorem sweepFold_mono {α : Type} [Inhabited α] (d : α → α → ℚ)
    (wps : List α) (l : List (ℕ × ℕ)) (st : List ℕ × ℚ × Bool) :
    (l.foldl (sweepStep d wps) st).2.1 ≤ st.2.1 := by
  rcases sweepFold_char d wps l st with he | hr
  · rw [he]
  · exact le_of_lt hr.2.2.1

theorem sweepFold_fixpoint {α : Type} [Inhabited α] (d : α → α → ℚ)
    (wps : List α) :
    ∀ (l : List (ℕ × ℕ)) (st : List ℕ × ℚ × Bool),
      l.foldl (sweepStep d wps) st = st →
      ∀ ij ∈ l, ¬ (calculate_path_distance d
          (extract_path wps (two_opt_swap st.1 ij.1 ij.2)) < st.2.1) := by
  intro l
  induction l with
  | nil => intro st _ ij hij; exact absurd hij (List.not_mem_nil ij)
  | cons ij0 t ih =>
    intro st hfix ij hij
    rw [List.foldl_cons] at hfix
    by_cases hc : calculate_path_distance d
        (extract_path wps (two_opt_swap st.1 ij0.1 ij0.2)) < st.2.1
    · exfalso
      have hstep : sweepStep d wps st ij0 =
          (two_opt_swap st.1 ij0.1 ij0.2,
           calculate_path_distance d
             (extract_path wps (two_opt_swap st.1 ij0.1 ij0.2)), true) := by
        unfold sweepStep
        rw [if_pos hc]
      rw [hstep] at hfix
      have hmono := sweepFold_mono d wps t
        (two_opt_swap st.1 ij0.1 ij0.2,
         calculate_path_distance d
           (extract_path wps (two_opt_swap st.1 ij0.1 ij0.2)), true)
      rw [hfix] at hmono
      simp only at hmono
      exact absurd (lt_of_le_of_lt hmono hc) (lt_irrefl _)
    · have hstep : sweepStep d wps st ij0 = st := by
        unfold sweepStep
        rw [if_neg hc]
      rw [hstep] at hfix
      rcases List.mem_cons.mp hij with rfl | hijt
      · exact hc
      · exact ih st hfix ij hijt

/-- With any sweep budget exceeding the loop measure, the 2-opt loop reaches
a state where no candidate reversal strictly improves. -/
theorem twoOptGo_spec {α : Type} [Inhabited α] (d : α → α → ℚ)
    (wps : List α) :
    ∀ (fuel : ℕ) (path : List ℕ) (best : ℚ),
      best = orderCost d wps path →
      ((path.permutations).filter
        (fun q => decide (orderCost d wps q < best))).length < fuel →
      (twoOptGo d wps fuel path best).Perm path ∧
      orderCost d wps (twoOptGo d wps fuel path best) ≤ best ∧
      ∀ ij ∈ sweepPairs (twoOptGo d wps fuel path best).length,
        ¬ (orderCost d wps
            (two_opt_swap (twoOptGo d wps fuel path best) ij.1 ij.2) <
          orderCost d wps (twoOptGo d wps fuel path best)) := by
  intro fuel
  induction fuel with
  | zero =>
    intro path best _ hm
    exact absurd hm (Nat.not_lt_zero _)
  | succ fuel ih =>
    intro path best hbest hm
    have hgo : twoOptGo d wps (fuel + 1) path best =
        if (sweep d wps path best).2.2 = true then
          twoOptGo d wps fuel (sweep d wps path best).1
            (sweep d wps path best).2.1
        else path := rfl
    rcases sweepFold_char d wps (sweepPairs path.length) (path, best, false)
      with he | hr
    · have hflag : (sweep d wps path best).2.2 = false := by
        show ((sweepPairs path.length).foldl (sweepStep d wps)
          (path, best, false)).2.2 = false
        rw [he]
      rw [hgo, if_neg (by rw [hflag]; simp)]
      refine ⟨List.Perm.refl path, le_of_eq hbest.symm, ?_⟩
      intro ij hij
      have hfix := sweepFold_fixpoint d wps (sweepPairs path.length)
        (path, best, false) he ij hij
      rw [← hbest]
      exact hfix
    · have hflag : (sweep d wps path best).2.2 = true := hr.1
      rw [hgo, if_pos hflag]
      have h1 : (sweep d wps path best).2.1 =
          orderCost d wps (sweep d wps path best).1 := hr.2.1
      have h2 : (sweep d wps path best).2.1 < best := hr.2.2.1
      have h3 : ((sweep d wps path best).1).Perm path := hr.2.2.2
      have hmeas := twoOpt_measure_lt d wps path (sweep d wps path best).1
        best (sweep d wps path best).2.1 h3 h1.symm h2
      obtain ⟨ihp, ihle, ihopt⟩ := ih (sweep d wps path best).1
        (sweep d wps path best).2.1 h1 (by omega)
      exact ⟨ihp.trans h3, le_trans ihle (le_of_lt h2), ihopt⟩

/-- C6: a 2-opt move is accepted only when it strictly reduces the tracked
distance, the tracked distance never increases across sweeps, and (with
local search enabled) the loop terminates at a local optimum where no single
reversal strictly improves, returning a permutation of its input of no
greater total distance. -/
theorem two_opt_optimize_spec {α : Type} [Inhabited α] (d : α → α → ℚ)
    (cfg : AlgorithmConfig) (wps : List α) (path : List ℕ) :
    twoOptSpec d cfg wps path := by
  constructor
  · intro p b
    rcases sweepFold_char d wps (sweepPairs p.length) (p, b, false)
      with he | hr
    · have he2 : sweep d wps p b = (p, b, false) := he
      rw [he2]
      exact ⟨le_refl b, fun _ => rfl, fun hfl => absurd hfl (by simp)⟩
    · have hr1 : (sweep d wps p b).2.2 = true := hr.1
      refine ⟨le_of_lt hr.2.2.1, ?_, fun _ => ⟨hr.2.2.1, hr.2.1, hr.2.2.2⟩⟩
      intro hfl
      exact absurd hr1 (by rw [hfl]; simp)
  · intro hen
    have hopt : two_opt_optimize d cfg wps path =
        twoOptGo d wps (path.permutations.length + 1) path
          (calculate_path_distance d (extract_path wps path)) := by
      unfold two_opt_optimize
      rw [if_neg (by rw [hen]; simp)]
    rw [hopt]
    have hfuel : ((path.permutations).filter
        (fun q => decide (orderCost d wps q <
          calculate_path_distance d (extract_path wps path)))).length <
        path.permutations.length + 1 := by
      have hle := List.length_filter_le
        (fun q => decide (orderCost d wps q <
          calculate_path_distance d (extract_path wps path)))
        path.permutations
      omega
    exact twoOptGo_spec d wps (path.permutations.length + 1) path
      (calculate_path_distance d (extract_path wps path)) rfl hfuel

theorem two_opt_optimize_spec_witness :
    ((⟨100, 1 / 2, 4, 5, true, true⟩ :
        AlgorithmConfig).enable_local_search = true) ∧
    twoOptSpec (fun a b : ℕ => (a : ℚ) + (b : ℚ))
      ⟨100, 1 / 2, 4, 5, true, true⟩ [0, 1] [1, 0] :=
  ⟨rfl,
   two_opt_optimize_spec (fun a b : ℕ => (a : ℚ) + (b : ℚ))
     ⟨100, 1 / 2, 4, 5, true, true⟩ [0, 1] [1, 0]⟩

/-- One annealing iteration keeps both tracked paths permutations of
`{0,…,n-1}`. -/
theorem saStep_perm {α : Type} [Inhabited α] (d : α → α → ℚ)
    (expTest : ℚ → ℚ → ℚ → Bool) (cfg : AlgorithmConfig) (wps : List α)
    (st : SAState)
    (h : st.current_path.Perm (List.range wps.length) ∧
      st.best_path.Perm (List.range wps.length)) :
    (saStep d expTest cfg wps st).current_path.Perm
      (List.range wps.length) ∧
    (saStep d expTest cfg wps st).best_path.Perm
      (List.range wps.length) := by
  obtain ⟨hc, hb⟩ := h
  by_cases hstop : st.stopped = true
  · simp only [saStep, hstop, if_true]
    exact ⟨hc, hb⟩
  · have hstop2 : st.stopped = false := by simpa using hstop
    simp only [saStep, hstop2, Bool.false_eq_true, if_false]
    by_cases hij : (randint 1 (wps.length - 1) st.g).1 =
        (randint 1 (wps.length - 1) (randint 1 (wps.length - 1) st.g).2).1
    · rw [if_pos hij]
      exact ⟨hc, hb⟩
    · rw [if_neg hij]
      set m := two_opt_swap st.current_path
        (min (randint 1 (wps.length - 1) st.g).1
          (randint 1 (wps.length - 1)
            (randint 1 (wps.length - 1) st.g).2).1)
        (max (randint 1 (wps.length - 1) st.g).1
          (randint 1 (wps.length - 1)
            (randint 1 (wps.length - 1) st.g).2).1) with hm
      have hmoved : m.Perm (List.range wps.length) :=
        (hm ▸ two_opt_swap_perm st.current_path _ _).trans hc
      set nd := calculate_path_distance d (extract_path wps m) with hnd
      by_cases hdlt : nd - st.current_dist < 0
      · rw [if_pos hdlt, if_pos hdlt]
        refine ⟨hmoved, ?_⟩
        show (if nd < st.best_dist then m else st.best_path).Perm
          (List.range wps.length)
        by_cases hbd : nd < st.best_dist
        · rw [if_pos hbd]
          exact hmoved
        · rw [if_neg hbd]
          exact hb
      · rw [if_neg hdlt, if_neg hdlt]
        by_cases htmp : st.temp > 1 / 1000000000
        · rw [if_pos htmp, if_pos htmp]
          cases hacc : expTest (nd - st.current_dist) st.temp
            (randunit (randint 1 (wps.length - 1)
              (randint 1 (wps.length - 1) st.g).2).2).1 with
          | false =>
            exact ⟨hc, hb⟩
          | true =>
            refine ⟨hmoved, ?_⟩
            show (if nd < st.best_dist then m else st.best_path).Perm
              (List.range wps.length)
            by_cases hbd : nd < st.best_dist
            · rw [if_pos hbd]
              exact hmoved
            · rw [if_neg hbd]
              exact hb
        · rw [if_neg htmp, if_neg htmp]
          exact ⟨hc, hb⟩

theorem saRun_perm {α : Type} [Inhabited α] (d : α → α → ℚ)
    (expTest : ℚ → ℚ → ℚ → Bool) (cfg : AlgorithmConfig) (wps : List α)
    (g : Rng) (h : wps ≠ []) :
    (saRun d expTest cfg wps g).best_path.Perm
      (List.range wps.length) := by
  have hiter : ∀ (k : ℕ) (st : SAState),
      st.current_path.Perm (List.range wps.length) →
      st.best_path.Perm (List.range wps.length) →
      ((saStep d expTest cfg wps)^[k] st).current_path.Perm
          (List.range wps.length) ∧
      ((saStep d expTest cfg wps)^[k] st).best_path.Perm
          (List.range wps.length) := by
    intro k
    induction k with
    | zero => intro st h1 h2; exact ⟨h1, h2⟩
    | succ k ih =>
      intro st h1 h2
      rw [Function.iterate_succ_apply]
      obtain ⟨h1s, h2s⟩ := saStep_perm d expTest cfg wps st ⟨h1, h2⟩
      exact ih _ h1s h2s
  have hg := construct_greedy_path_perm d wps g h
  exact (hiter (min cfg.max_iterations (wps.length * wps.length * 50))
    ⟨(construct_greedy_path d wps g).1,
     calculate_path_distance d
       (extract_path wps (construct_greedy_path d wps g).1),
     (construct_greedy_path d wps g).1,
     calculate_path_distance d
       (extract_path wps (construct_greedy_path d wps g).1),
     cfg.initial_temperature, (construct_greedy_path d wps g).2, false⟩
    hg hg).2

theorem two_opt_optimize_perm {α : Type} [Inhabited α] (d : α → α → ℚ)
    (cfg : AlgorithmConfig) (wps : List α) (p : List ℕ) :
    (two_opt_optimize d cfg wps p).Perm p := by
  unfold two_opt_optimize
  by_cases hen : cfg.enable_local_search = false
  · rw [if_pos hen]
  · rw [if_neg hen]
    have hfuel : ((p.permutations).filter
        (fun q => decide (orderCost d wps q <
          calculate_path_distance d (extract_path wps p)))).length <
        p.permutations.length + 1 := by
      have hle := List.length_filter_le
        (fun q => decide (orderCost d wps q <
          calculate_path_distance d (extract_path wps p)))
        p.permutations
      omega
    exact (twoOptGo_spec d wps (p.permutations.length + 1) p
      (calculate_path_distance d (extract_path wps p)) rfl hfuel).1

theorem solve_exact_perm {α : Type} [Inhabited α] (d : α → α → ℚ)
    (expTest : ℚ → ℚ → ℚ → Bool) (cfg : AlgorithmConfig) (wps : List α)
    (g : Rng) (h : wps.length ≤ 12) :
    ((solve_exact_internal d expTest cfg wps g).1).Perm
      (List.range wps.length) := by
  rw [solve_exact_eq_runMin d expTest cfg wps g h]
  obtain ⟨hmem, _, _, _⟩ :=
    runMin_spec (orderCost d wps) (permutationsLex wps.length)
      (List.range wps.length)
  rcases hmem with he | hm
  · rw [he]
  · exact (mem_permsAux (List.nodup_range _)
      (List.length_range wps.length)).mp hm

theorem map_getD_range {α : Type} [Inhabited α] :
    ∀ (l : List α),
      (List.range l.length).map (fun i => l.getD i default) = l := by
  intro l
  induction l with
  | nil => rfl
  | cons a t ih =>
    show (List.range (t.length + 1)).map
      (fun i => (a :: t).getD i default) = a :: t
    rw [List.range_succ_eq_map, List.map_cons, List.map_map]
    have hcomp : ((fun i => (a :: t).getD i default) ∘ Nat.succ) =
        fun i => t.getD i default := by
      funext i
      rfl
    rw [hcomp, ih]
    rfl

theorem extract_path_perm {α : Type} [Inhabited α] (wps : List α)
    (order : List ℕ) (h : order.Perm (List.range wps.length)) :
    (extract_path wps order).Perm wps := by
  have hmap := h.map (fun i => wps.getD i default)
  rw [map_getD_range wps] at hmap
  exact hmap

theorem solvedOrder_perm {α : Type} [Inhabited α] (d : α → α → ℚ)
    (expTest : ℚ → ℚ → ℚ → Bool) (cfg : AlgorithmConfig) (wps : List α)
    (g : Rng) :
    ((solvedOrder d expTest cfg wps g).1).Perm (List.range wps.length) := by
  unfold solvedOrder
  by_cases hlen : wps.length ≤ 12
  · rw [if_pos hlen]
    exact solve_exact_perm d expTest cfg wps g hlen
  · rw [if_neg hlen]
    have hne : wps ≠ [] := by
      intro h0
      rw [h0] at hlen
      simp at hlen
    show ((if cfg.enable_local_search then
        (two_opt_optimize d cfg wps (simulated_annealing d expTest cfg wps g).1,
         (simulated_annealing d expTest cfg wps g).2)
      else simulated_annealing d expTest cfg wps g).1).Perm
        (List.range wps.length)
    by_cases hen : cfg.enable_local_search
    · rw [if_pos hen]
      exact (two_opt_optimize_perm d cfg wps _).trans
        (saRun_perm d expTest cfg wps g hne)
    · rw [if_neg hen]
      exact saRun_perm d expTest cfg wps g hne

theorem mem_pairIndices (ns ne : ℕ) (p : ℕ × ℕ) :
    p ∈ pairIndices ns ne ↔ p.1 < ns ∧ p.2 < ne := by
  obtain ⟨a, b⟩ := p
  simp only [pairIndices, List.mem_flatMap, List.mem_map, List.mem_range]
  constructor
  · rintro ⟨si, hsi, ei, hei, heq⟩
    cases heq
    exact ⟨hsi, hei⟩
  · rintro ⟨ha, hb⟩
    exact ⟨a, ha, b, hb, rfl⟩

theorem planStep_shape {α : Type} [Inhabited α] (d : α → α → ℚ)
    (expTest : ℚ → ℚ → ℚ → Bool) (cfg : AlgorithmConfig)
    (starts wps ends : List α) (acc : Option (List α × ℚ × ℕ × ℕ) × Rng)
    (p : ℕ × ℕ) (hp1 : p.1 < starts.length) (hp2 : p.2 < ends.length)
    (hacc : ∀ b, acc.1 = some b → planShape starts wps ends b) :
    ∃ b, (planStep d expTest cfg starts wps ends acc p).1 = some b ∧
      planShape starts wps ends b := by
  obtain ⟨a, g0⟩ := acc
  have hord := solvedOrder_perm d expTest cfg wps g0
  cases a with
  | none =>
    refine ⟨_, rfl, ?_⟩
    exact ⟨hp1, hp2, (solvedOrder d expTest cfg wps g0).1, hord, rfl⟩
  | some b0 =>
    simp only [planStep]
    by_cases hlt : calculate_path_distance d
        (starts.getD p.1 default ::
          (extract_path wps (solvedOrder d expTest cfg wps g0).1 ++
            [ends.getD p.2 default])) < b0.2.1
    · rw [if_pos (decide_eq_true hlt)]
      refine ⟨_, rfl, ?_⟩
      exact ⟨hp1, hp2, (solvedOrder d expTest cfg wps g0).1, hord, rfl⟩
    · rw [if_neg (fun h => hlt (of_decide_eq_true h))]
      exact ⟨b0, rfl, hacc b0 rfl⟩

theorem planFold_shape {α : Type} [Inhabited α] (d : α → α → ℚ)
    (expTest : ℚ → ℚ → ℚ → Bool) (cfg : AlgorithmConfig)
    (starts wps ends : List α) :
    ∀ (l : List (ℕ × ℕ)) (acc : Option (List α × ℚ × ℕ × ℕ) × Rng),
      (∀ p ∈ l, p.1 < starts.length ∧ p.2 < ends.length) →
      (∀ b, acc.1 = some b → planShape starts wps ends b) →
      (acc.1 = none → l ≠ []) →
      ∃ b, (l.foldl (planStep d expTest cfg starts wps ends) acc).1 = some b ∧
        planShape starts wps ends b := by
  intro l
  induction l with
  | nil =>
    intro acc hin hacc hnil
    cases ha : acc.1 with
    | none => exact absurd rfl (hnil ha)
    | some b => exact ⟨b, ha, hacc b ha⟩
  | cons p t ih =>
    intro acc hin hacc _
    rw [List.foldl_cons]
    obtain ⟨b0, hb0, hsh⟩ := planStep_shape d expTest cfg starts wps ends acc p
      (hin p (List.mem_cons_self p t)).1 (hin p (List.mem_cons_self p t)).2 hacc
    refine ih _ (fun q hq => hin q (List.mem_cons_of_mem _ hq)) ?_ ?_
    · intro b1 hb1
      rw [hb0] at hb1
      cases hb1
      exact hsh
    · intro hnone
      rw [hb0] at hnone
      exact absurd hnone (Option.some_ne_none b0)

theorem getD_mem {α : Type} (l : List α) (n : ℕ) (a : α) (h : n < l.length) :
    l.getD n a ∈ l := by
  rw [List.getD_eq_getElem l a h]
  exact List.getElem_mem h

/-- **C2.** For every non-empty candidate start list, non-empty candidate end
list and every waypoint list, the route result of `plan_route` satisfies the
invariants: its path has length `n + 2`, its interior `path[1:-1]` is a
permutation of the waypoints (each appears exactly once), its first element
is drawn from the start candidates and its last from the end candidates —
in both the exact branch (`n ≤ 12`) and the heuristic branch (`n > 12`). -/
theorem plan_route_invariants {α : Type} [Inhabited α] (d : α → α → ℚ)
    (expTest : ℚ → ℚ → ℚ → Bool) (cfg : AlgorithmConfig)
    (starts wps ends : List α) (g : Rng)
    (hs : starts ≠ []) (he : ends ≠ []) :
    planRouteSpec starts wps ends
      (plan_route d expTest cfg starts wps ends g).1 := by
  have hns : 0 < starts.length := List.length_pos.mpr hs
  have hne : 0 < ends.length := List.length_pos.mpr he
  obtain ⟨b, hfold, hsh⟩ := planFold_shape d expTest cfg starts wps ends
    (pairIndices starts.length ends.length) (none, g)
    (fun p hp => (mem_pairIndices _ _ p).mp hp)
    (fun b1 hb1 => Option.noConfusion hb1)
    (fun _ => List.ne_nil_of_mem
      ((mem_pairIndices _ _ (0, 0)).mpr ⟨hns, hne⟩))
  have hres : (plan_route d expTest cfg starts wps ends g).1 =
      ⟨b.1, some b.2.1, b.2.2.1, b.2.2.2⟩ := by
    simp only [plan_route, hfold]
  obtain ⟨hi1, hi2, order, hordp, hpath⟩ := hsh
  have hlen : order.length = wps.length := by
    have h0 := hordp.length_eq
    simpa using h0
  rw [hres]
  unfold planRouteSpec
  refine ⟨?_, ?_, ?_, ?_⟩
  · show b.1.length = wps.length + 2
    rw [hpath]
    simp [extract_path, hlen]
  · show ((b.1.drop 1).dropLast).Perm wps
    rw [hpath, List.drop_one, List.tail_cons, List.dropLast_concat]
    exact extract_path_perm wps order hordp
  · refine ⟨starts.getD b.2.2.1 default, getD_mem _ _ _ hi1, ?_⟩
    show b.1.head? = some (starts.getD b.2.2.1 default)
    rw [hpath]
    rfl
  · refine ⟨ends.getD b.2.2.2 default, getD_mem _ _ _ hi2, ?_⟩
    show b.1.getLast? = some (ends.getD b.2.2.2 default)
    rw [hpath, ← List.cons_append, List.getLast?_concat]

/-- Witness for C2: the invariants at a concrete one-waypoint instance. -/
theorem plan_route_invariants_witness :
    ([5] : List ℕ) ≠ [] ∧ ([7] : List ℕ) ≠ [] ∧
    planRouteSpec [5] [9] [7]
      (plan_route (fun _ _ : ℕ => 0) (fun _ _ _ => true)
        ⟨10, 1/2, 4, 5, false, false⟩ [5] [9] [7]
        ⟨fun _ => 0, fun _ => 0, 0, 0⟩).1 :=
  ⟨by decide, by decide,
   plan_route_invariants (fun _ _ : ℕ => 0) (fun _ _ _ => true)
     ⟨10, 1/2, 4, 5, false, false⟩ [5] [9] [7]
     ⟨fun _ => 0, fun _ => 0, 0, 0⟩ (by decide) (by decide)⟩

theorem pairIndices_nil_left (ne : ℕ) : pairIndices 0 ne = [] := rfl

theorem pairIndices_nil_right (ns : ℕ) : pairIndices ns 0 = [] := by
  unfold pairIndices
  simp

/-- **C4 (amended).** `plan_route` performs no input validation: with an
empty start candidate list or an empty end candidate list the double loop
body never runs, no error is signalled, and the function returns a default
route result — empty path, infinite (`none`) distance, indices `0` — with
the random source untouched. -/
theorem plan_route_no_validation {α : Type} [Inhabited α] (d : α → α → ℚ)
    (expTest : ℚ → ℚ → ℚ → Bool) (cfg : AlgorithmConfig)
    (starts wps ends : List α) (g : Rng)
    (h : starts = [] ∨ ends = []) :
    plan_route d expTest cfg starts wps ends g =
      (⟨[], none, 0, 0⟩, g) := by
  have hpairs : pairIndices starts.length ends.length = [] := by
    rcases h with rfl | rfl
    · exact pairIndices_nil_left _
    · exact pairIndices_nil_right _
  simp only [plan_route, hpairs, List.foldl_nil]

/-- Witness for the amended C4: a concrete call with an empty end list
returns the default result instead of failing. -/
theorem plan_route_no_validation_witness :
    (([5] : List ℕ) = [] ∨ ([] : List ℕ) = []) ∧
    plan_route (fun _ _ : ℕ => 0) (fun _ _ _ => true)
      ⟨10, 1/2, 4, 5, false, false⟩ [5] [1, 2] []
      ⟨fun _ => 0, fun _ => 0, 0, 0⟩ =
    (⟨[], none, 0, 0⟩, ⟨fun _ => 0, fun _ => 0, 0, 0⟩) :=
  ⟨Or.inr rfl,
   plan_route_no_validation (fun _ _ : ℕ => 0) (fun _ _ _ => true)
     ⟨10, 1/2, 4, 5, false, false⟩ [5] [1, 2] []
     ⟨fun _ => 0, fun _ => 0, 0, 0⟩ (Or.inr rfl)⟩

/-- **C4 counterexample.** A concrete call of `plan_route` with an empty
start candidate list is not rejected: it computes and returns a default
route result (empty path, `none` distance, indices `0`), contradicting the
claim that such a call signals an invocation error before any computation. -/
theorem plan_route_empty_starts_counterexample :
    plan_route (fun _ _ : ℕ => 0) (fun _ _ _ => true)
      ⟨10, 1/2, 4, 5, false, false⟩ [] [1, 2] [7]
      ⟨fun _ => 0, fun _ => 0, 0, 0⟩ =
    (⟨[], none, 0, 0⟩, ⟨fun _ => 0, fun _ => 0, 0, 0⟩) := rfl

theorem planStep_empty {α : Type} [Inhabited α] (d : α → α → ℚ)
    (expTest : ℚ → ℚ → ℚ → Bool) (cfg : AlgorithmConfig)
    (starts ends : List α) (a : Option (List α × ℚ × ℕ × ℕ)) (g0 : Rng)
    (p : ℕ × ℕ) :
    planStep d expTest cfg starts ([] : List α) ends (a, g0) p =
      (if (match a with
           | none => true
           | some b => decide (pairDist d starts ends p < b.2.1))
       then some ([starts.getD p.1 default, ends.getD p.2 default],
                  pairDist d starts ends p, p.1, p.2)
       else a, g0) := by
  cases a <;> rfl

theorem planFold_empty {α : Type} [Inhabited α] (d : α → α → ℚ)
    (expTest : ℚ → ℚ → ℚ → Bool) (cfg : AlgorithmConfig)
    (starts ends : List α) (g : Rng) :
    ∀ (l : List (ℕ × ℕ)) (q : ℕ × ℕ),
      l.foldl (planStep d expTest cfg starts ([] : List α) ends)
        (some ([starts.getD q.1 default, ends.getD q.2 default],
               pairDist d starts ends q, q.1, q.2), g) =
      (some ([starts.getD (runMin (pairDist d starts ends) l q).1 default,
              ends.getD (runMin (pairDist d starts ends) l q).2 default],
             pairDist d starts ends (runMin (pairDist d starts ends) l q),
             (runMin (pairDist d starts ends) l q).1,
             (runMin (pairDist d starts ends) l q).2), g) := by
  intro l
  induction l with
  | nil => intro q; rfl
  | cons p t ih =>
    intro q
    rw [List.foldl_cons, planStep_empty, runMin_cons]
    by_cases h : pairDist d starts ends p < pairDist d starts ends q
    · rw [if_pos (decide_eq_true h), if_pos h]
      exact ih p
    · rw [if_neg (fun hc => h (of_decide_eq_true hc)), if_neg h]
      exact ih q

theorem pairIndices_pairwise (ns ne : ℕ) :
    (pairIndices ns ne).Pairwise
      (fun p q : ℕ × ℕ => p.1 < q.1 ∨ (p.1 = q.1 ∧ p.2 < q.2)) := by
  unfold pairIndices
  rw [List.pairwise_flatMap]
  constructor
  · intro si _
    rw [List.pairwise_map]
    exact List.Pairwise.imp (fun h => Or.inr ⟨rfl, h⟩)
      (List.sorted_lt_range ne)
  · refine List.Pairwise.imp ?_ (List.sorted_lt_range ns)
    intro s1 s2 h12 x hx y hy
    obtain ⟨e1, _, rfl⟩ := List.mem_map.mp hx
    obtain ⟨e2, _, rfl⟩ := List.mem_map.mp hy
    exact Or.inl h12

/-- **C5.** With a non-empty start list, a non-empty end list and no
waypoints, `plan_route` returns path `[start, end]` for the chosen index
pair, total distance equal to the direct start–end distance of that pair,
and the chosen pair minimizes the pairwise distance over the Cartesian
product of the candidate lists, ties broken by first-encountered
enumeration order (start index outer, end index inner). -/
theorem plan_route_empty_waypoints {α : Type} [Inhabited α] (d : α → α → ℚ)
    (expTest : ℚ → ℚ → ℚ → Bool) (cfg : AlgorithmConfig)
    (starts ends : List α) (g : Rng) (hs : starts ≠ []) (he : ends ≠ []) :
    emptyWaypointsSpec d starts ends
      (plan_route d expTest cfg starts ([] : List α) ends g).1 := by
  have hns : 0 < starts.length := List.length_pos.mpr hs
  have hne : 0 < ends.length := List.length_pos.mpr he
  obtain ⟨p0, t, hpt⟩ :
      ∃ p0 t, pairIndices starts.length ends.length = p0 :: t := by
    cases hcase : pairIndices starts.length ends.length with
    | nil =>
      exfalso
      have hmem0 := (mem_pairIndices starts.length ends.length (0, 0)).mpr
        ⟨hns, hne⟩
      rw [hcase] at hmem0
      exact absurd hmem0 (List.not_mem_nil _)
    | cons p0 t => exact ⟨p0, t, rfl⟩
  set r := runMin (pairDist d starts ends) t p0 with hrdef
  have hspec := runMin_spec (pairDist d starts ends) t p0
  rw [← hrdef] at hspec
  obtain ⟨hmem, hlep0, hallt, hfirst⟩ := hspec
  have hstep1 : planStep d expTest cfg starts ([] : List α) ends (none, g) p0 =
      (some ([starts.getD p0.1 default, ends.getD p0.2 default],
             pairDist d starts ends p0, p0.1, p0.2), g) := by
    rw [planStep_empty]
    rfl
  have hfold0 := planFold_empty d expTest cfg starts ends g t p0
  rw [← hrdef] at hfold0
  have hres : (plan_route d expTest cfg starts ([] : List α) ends g).1 =
      ⟨[starts.getD r.1 default, ends.getD r.2 default],
       some (pairDist d starts ends r), r.1, r.2⟩ := by
    simp only [plan_route, hpt, List.foldl_cons, hstep1, hfold0]
  have hrmem : r ∈ pairIndices starts.length ends.length := by
    rw [hpt]
    rcases hmem with hrp | hm
    · rw [hrp]
      exact List.mem_cons_self _ _
    · exact List.mem_cons_of_mem _ hm
  have hrange := (mem_pairIndices _ _ r).mp hrmem
  rw [hres]
  unfold emptyWaypointsSpec
  refine ⟨hrange.1, hrange.2, rfl, ?_, ?_, ?_⟩
  · show some (pairDist d starts ends r) =
        some (d (starts.getD r.1 default) (ends.getD r.2 default))
    simp [pairDist]
  · show ∀ si ei, si < starts.length → ei < ends.length →
        d (starts.getD r.1 default) (ends.getD r.2 default) ≤
          d (starts.getD si default) (ends.getD ei default)
    intro si ei hsi hei
    have hq : (si, ei) ∈ pairIndices starts.length ends.length :=
      (mem_pairIndices _ _ (si, ei)).mpr ⟨hsi, hei⟩
    rw [hpt] at hq
    have hFle : pairDist d starts ends r ≤ pairDist d starts ends (si, ei) := by
      rcases List.mem_cons.mp hq with hq0 | hqt
      · rw [hq0]
        exact hlep0
      · exact hallt _ hqt
    simpa [pairDist] using hFle
  · show ∀ si ei, si < starts.length → ei < ends.length →
        (si < r.1 ∨ (si = r.1 ∧ ei < r.2)) →
        d (starts.getD r.1 default) (ends.getD r.2 default) <
          d (starts.getD si default) (ends.getD ei default)
    intro si ei hsi hei hlex
    have hq : (si, ei) ∈ pairIndices starts.length ends.length :=
      (mem_pairIndices _ _ (si, ei)).mpr ⟨hsi, hei⟩
    have hpw := pairIndices_pairwise starts.length ends.length
    have hFlt : pairDist d starts ends r < pairDist d starts ends (si, ei) := by
      by_cases hrp : r = p0
      · exfalso
        rw [hpt] at hq hpw
        rcases List.mem_cons.mp hq with hq0 | hqt
        · have hr2 : r = (si, ei) := hrp.trans hq0.symm
          rw [hr2] at hlex
          simp at hlex
        · have h01 := (List.pairwise_cons.mp hpw).1 (si, ei) hqt
          rw [hrp] at hlex
          simp only at h01
          rcases hlex with h | ⟨h1, h2⟩ <;>
            rcases h01 with h3 | ⟨h3, h4⟩ <;> omega
      · obtain ⟨pre, post, hsp, hltp0, hpre⟩ := hfirst hrp
        rw [hpt, hsp] at hq hpw
        rcases List.mem_cons.mp hq with hq0 | hq1
        · rw [hq0]
          exact hltp0
        · rcases List.mem_append.mp hq1 with hqpre | hqr2
          · exact hpre _ hqpre
          · rcases List.mem_cons.mp hqr2 with hqr | hqpost
            · exfalso
              rw [← hqr] at hlex
              simp at hlex
            · exfalso
              have hP1 := (List.pairwise_cons.mp hpw).2
              have hP2 := (List.pairwise_append.mp hP1).2.1
              have hrq := (List.pairwise_cons.mp hP2).1 (si, ei) hqpost
              simp only at hrq
              rcases hlex with h | ⟨h1, h2⟩ <;>
                rcases hrq with h3 | ⟨h3, h4⟩ <;> omega
    simpa [pairDist] using hFlt

/-- Witness for C5 at a concrete two-start instance. -/
theorem plan_route_empty_waypoints_witness :
    ([3, 4] : List ℕ) ≠ [] ∧ ([7] : List ℕ) ≠ [] ∧
    emptyWaypointsSpec (fun _ _ : ℕ => 0) [3, 4] [7]
      (plan_route (fun _ _ : ℕ => 0) (fun _ _ _ => true)
        ⟨10, 1/2, 4, 5, false, false⟩ [3, 4] ([] : List ℕ) [7]
        ⟨fun _ => 0, fun _ => 0, 0, 0⟩).1 :=
  ⟨by decide, by decide,
   plan_route_empty_waypoints (fun _ _ : ℕ => 0) (fun _ _ _ => true)
     ⟨10, 1/2, 4, 5, false, false⟩ [3, 4] [7]
     ⟨fun _ => 0, fun _ => 0, 0, 0⟩ (by decide) (by decide)⟩

/-- **C10.** The `use_cache` flag has no effect on `plan_route`: with every
other configuration field, all inputs and the random source held fixed,
flipping `use_cache` yields the identical result (path, total distance,
chosen indices) and identical final random source — the cached lookup
`get_distance` is never invoked by `plan_route` or any routine it calls;
every distance evaluation goes through the uncached `calculate` (the `d`
parameter). -/
theorem plan_route_use_cache_irrelevant {α : Type} [Inhabited α]
    (d : α → α → ℚ) (expTest : ℚ → ℚ → ℚ → Bool) (ps : ℕ) (cr it : ℚ)
    (mi : ℕ) (b1 b2 els : Bool) (starts wps ends : List α) (g : Rng) :
    plan_route d expTest ⟨ps, cr, it, mi, b1, els⟩ starts wps ends g =
      plan_route d expTest ⟨ps, cr, it, mi, b2, els⟩ starts wps ends g := rfl
